import Mathlib

/-!
Verification of the pbtrie byte-trie (the pointer-trie implementation).

The embedding mirrors the Go sources:
  * `Node` and its methods `search`, `put`, `get`, `delete`, `range'` are
    translated from the pointer-trie implementation in the repository
    (the file containing `node.Put`, `node.Get`, `node.Delete`, `node.Range`,
    `forwardChildAdj`, `reverseChildAdj`, `node.search`).
  * The `Bounds` value type and its operations `compareKey` (the source's
    `Bounds.Compare`) and `childBounds`, together with the `From`/`To`/`DownTo`
    builders and the post-order traversal, are not among the provided sources
    (only their callers are); they are modelled from the specification.

Go's in-place mutation is rendered functionally: a mutating method returns the
new tree along with the method's results.  Go's lazy `iter.Seq` sequences are
rendered as lists; early termination of a lazy walk corresponds to the
list-producing function returning without inspecting the rest of its input.
Bytes are `Fin 256`, keys are lists of bytes, and the value type is an
arbitrary inhabited type whose `default` element plays the role of Go's zero
value.
-/

abbrev Byte := Fin 256

abbrev Key := List Byte

/-- Lexicographic three-way comparison of keys: standard byte-wise order, a
strict prefix is less than any of its extensions. -/
def keyCmp : Key → Key → Ordering
  | [], [] => .eq
  | [], _ :: _ => .lt
  | _ :: _, [] => .gt
  | a :: as, b :: bs =>
    if a < b then .lt
    else if b < a then .gt
    else keyCmp as bs

/-- One byte-position of some stored key's path from the root; translated from
the source's `node` struct: `value`, `children`, `keyByte`, `isTerminal`. -/
inductive Node (V : Type) : Type where
  | mk (value : V) (children : List (Node V)) (keyByte : Byte) (isTerminal : Bool)

def Node.value : Node V → V
  | .mk v _ _ _ => v

def Node.children : Node V → List (Node V)
  | .mk _ cs _ _ => cs

def Node.keyByte : Node V → Byte
  | .mk _ _ b _ => b

def Node.isTerminal : Node V → Bool
  | .mk _ _ _ t => t

@[simp]
theorem Node.value_mk (v : V) (cs : List (Node V)) (kb : Byte) (t : Bool) :
    (Node.mk v cs kb t).value = v := rfl

@[simp]
theorem Node.children_mk (v : V) (cs : List (Node V)) (kb : Byte) (t : Bool) :
    (Node.mk v cs kb t).children = cs := rfl

@[simp]
theorem Node.keyByte_mk (v : V) (cs : List (Node V)) (kb : Byte) (t : Bool) :
    (Node.mk v cs kb t).keyByte = kb := rfl

@[simp]
theorem Node.isTerminal_mk (v : V) (cs : List (Node V)) (kb : Byte) (t : Bool) :
    (Node.mk v cs kb t).isTerminal = t := rfl

/-- The empty trie returned by `NewPointerTrie`: zero value, no children,
key byte 0, not terminal. -/
def newPointerTrie (V : Type) [Inhabited V] : Node V :=
  .mk default [] 0 false

/-- A placeholder node used as the default of in-bounds list indexing
(never actually selected). -/
def dfltNode (V : Type) [Inhabited V] : Node V :=
  .mk default [] 0 false

/-- Translated from the source's `node.search`, as a function of the children
list: linear scan returning the index of the child with the given key byte and
whether it was found; when not found the index is the sorted insertion
position. -/
def searchList : Byte → List (Node V) → Nat × Bool
  | _, [] => (0, false)
  | b, c :: cs =>
    if b = c.keyByte then (0, true)
    else if b < c.keyByte then (0, false)
    else
      let r := searchList b cs
      (r.1 + 1, r.2)

/-- The source's `node.search` method. -/
def Node.search (n : Node V) (b : Byte) : Nat × Bool :=
  searchList b n.children

/-- Insertion at an index, as performed by `Put`'s
`append`/`copy`/assignment splice of a new child into the children slice. -/
def insertAt (x : α) : Nat → List α → List α
  | _, [] => [x]
  | 0, c :: cs => x :: c :: cs
  | i + 1, c :: cs => c :: insertAt x i cs

/-- The chain of single-child nodes materializing the unmatched suffix of a
`Put` key, built by the inner loop of the source's `node.Put`; the last node
is terminal and holds the value. -/
def mkChain [Inhabited V] (value : V) (b : Byte) : Key → Node V
  | [] => .mk value [] b true
  | b' :: rest => .mk default [mkChain value b' rest] b false

/-- Translated from the source's `node.Put`.  Walks the key one byte per
level via `search`; on the first missing byte splices a `mkChain` of the
remaining suffix at the insertion position; if the full path exists,
overwrites that node's value and terminal flag.  Returns the new tree, the
previous value (zero when the key was absent) and whether the key existed. -/
def Node.put [Inhabited V] : Node V → Key → V → Node V × V × Bool
  | n, [], value =>
    if n.isTerminal then
      (.mk value n.children n.keyByte true, n.value, true)
    else
      (.mk value n.children n.keyByte true, default, false)
  | n, b :: rest, value =>
    match n.search b with
    | (index, true) =>
      let r := ((n.children.getD index (dfltNode V)).put rest value)
      (.mk n.value (n.children.set index r.1) n.keyByte n.isTerminal, r.2)
    | (index, false) =>
      (.mk n.value (insertAt (mkChain value b rest) index n.children) n.keyByte n.isTerminal,
        default, false)

/-- Translated from the source's `node.Get`: same descent, returns the node's
value iff the full path exists and the final node is terminal. -/
def Node.get [Inhabited V] : Node V → Key → V × Bool
  | n, [] => if n.isTerminal then (n.value, true) else (default, false)
  | n, b :: rest =>
    match n.search b with
    | (index, true) => (n.children.getD index (dfltNode V)).get rest
    | (_, false) => (default, false)

/-- The node reached by descending the full byte path, if it exists; the
common descent of `Get`, `Put`-overwrite and `Delete`. -/
def Node.nodeAt [Inhabited V] : Node V → Key → Option (Node V)
  | n, [] => some n
  | n, b :: rest =>
    match n.search b with
    | (index, true) => (n.children.getD index (dfltNode V)).nodeAt rest
    | (_, false) => none

/-- The recursive core of `Delete` for a non-empty key.  `none` means the
path does not fully exist or the final node is not terminal (no mutation).
Otherwise the final node's value is cleared and its terminal flag unset; a
child that is left non-terminal and childless is removed from its parent's
children, which reproduces the source's prune-anchor scheme: the removal
cascades upward exactly until the deepest ancestor that is terminal or has
more than one child — the source's `prune` node — which drops the single
child recorded at `pruneIndex`. -/
def delAux [Inhabited V] : Node V → Key → Option (Node V × V)
  | n, [] =>
    if n.isTerminal then some (.mk default n.children n.keyByte false, n.value)
    else none
  | n, b :: rest =>
    match n.search b with
    | (index, true) =>
      match delAux (n.children.getD index (dfltNode V)) rest with
      | none => none
      | some (c, prev) =>
        if !c.isTerminal && c.children.isEmpty then
          some (.mk n.value (n.children.eraseIdx index) n.keyByte n.isTerminal, prev)
        else
          some (.mk n.value (n.children.set index c) n.keyByte n.isTerminal, prev)
    | (_, false) => none

/-- Translated from the source's `node.Delete`.  The zero-length key only
clears the root's terminal flag and value and never prunes the root; a
not-found key leaves the tree untouched. -/
def Node.delete [Inhabited V] (n : Node V) (key : Key) : Node V × V × Bool :=
  match delAux n key with
  | none => (n, default, false)
  | some (n', prev) => (n', prev, true)

/-- Modelled from the spec: the `Bounds` value type (its source file is not
among the provided sources).  `low` and `high` are the ascending-order edges,
each either unbounded or a key paired with its inclusive flag; `isReverse`
selects the descending direction. -/
structure Bounds where
  low : Option (Key × Bool)
  high : Option (Key × Bool)
  isReverse : Bool

/-- Builder state after `From(key)`. -/
structure BoundsFrom where
  key : Key

/-- Modelled from the spec: `From(key)` begins a bounds whose anchor named
first is always inclusive. -/
def From (key : Key) : BoundsFrom :=
  ⟨key⟩

/-- Modelled from the spec: `From(begin).To(end)` is the forward bounds
`[begin, end)`: inclusive low edge `begin`, exclusive high edge `end`. -/
def BoundsFrom.To (f : BoundsFrom) (key : Key) : Bounds :=
  ⟨some (f.key, true), some (key, false), false⟩

/-- Modelled from the spec: `From(begin).DownTo(end)` is the reverse bounds
`(end, begin]`: inclusive high edge `begin`, exclusive low edge `end`. -/
def BoundsFrom.DownTo (f : BoundsFrom) (key : Key) : Bounds :=
  ⟨some (key, false), some (f.key, true), true⟩

/-- Modelled from the spec: the unconstrained ascending bounds. -/
def forwardAll : Bounds :=
  ⟨none, none, false⟩

/-- Modelled from the spec: the unconstrained descending bounds. -/
def reverseAll : Bounds :=
  ⟨none, none, true⟩

/-- Whether `k` falls on the low side of the low edge: strictly less than an
inclusive low key, at most an exclusive low key; an unbounded edge is always
satisfied. -/
def belowLowB (low : Option (Key × Bool)) (k : Key) : Bool :=
  match low with
  | none => false
  | some (l, true) =>
    match keyCmp k l with
    | .lt => true
    | _ => false
  | some (l, false) =>
    match keyCmp k l with
    | .gt => false
    | _ => true

/-- Whether `k` falls on the high side of the high edge: strictly greater
than an inclusive high key, at least an exclusive high key; an unbounded edge
is always satisfied. -/
def aboveHighB (high : Option (Key × Bool)) (k : Key) : Bool :=
  match high with
  | none => false
  | some (h, true) =>
    match keyCmp k h with
    | .gt => true
    | _ => false
  | some (h, false) =>
    match keyCmp k h with
    | .lt => false
    | _ => true

/-- Modelled from the spec: the source's `Bounds.Compare`, oriented by the
traversal direction so that the range loop's single `cmp > 0 → stop` test
terminates both walks: for a forward bounds a negative result means below the
low edge and a positive one above the high edge; for a reverse bounds the
roles are mirrored (a positive result means below the low edge), matching the
spec's early-termination rule for reverse walks. -/
def Bounds.compareKey (bds : Bounds) (k : Key) : Ordering :=
  if bds.isReverse then
    if aboveHighB bds.high k then .lt
    else if belowLowB bds.low k then .gt
    else .eq
  else
    if belowLowB bds.low k then .lt
    else if aboveHighB bds.high k then .gt
    else .eq

/-- Modelled from the spec: the low-edge half of `ChildBounds`.  Given the
accumulated path and the low edge key, returns the least admissible next
byte, or `none` when the whole subtree is already below the edge: while the
path is a strict prefix of the edge key the governing bound is the edge's
next byte; once the path equals or exceeds the edge key every byte is
admissible; a divergence below the edge kills the subtree. -/
def lowBound : Key → Key → Option Byte
  | _, [] => some 0
  | [], b :: _ => some b
  | a :: as, b :: bs =>
    if a < b then none
    else if b < a then some 0
    else lowBound as bs

/-- Modelled from the spec: the high-edge half of `ChildBounds`.  Returns the
greatest admissible next byte, or `none` when every extension of the path is
already above the edge: while the path is a strict prefix of the edge key the
governing bound is the edge's next byte; once the path equals or exceeds the
edge key no byte is admissible; a divergence below the edge frees the
subtree. -/
def highBound : Key → Key → Option Byte
  | _, [] => none
  | [], b :: _ => some b
  | a :: as, b :: bs =>
    if a < b then some 255
    else if b < a then none
    else highBound as bs

/-- Modelled from the spec: `Bounds.childBounds`, the bounds-narrowing step.
Combines the two per-edge byte bounds; an empty byte interval means the
subtree is inadmissible.  The pair is returned in traversal order — for a
reverse bounds the first component is the upper byte — matching how
`forwardChildAdj` and `reverseChildAdj` consume it. -/
def Bounds.childBounds (bds : Bounds) (pfx : Key) : Option (Byte × Byte) :=
  let lo : Option Byte :=
    match bds.low with
    | none => some 0
    | some (l, _) => lowBound pfx l
  let hi : Option Byte :=
    match bds.high with
    | none => some 255
    | some (h, _) => highBound pfx h
  match lo, hi with
  | some a, some b =>
    if a ≤ b then (if bds.isReverse then some (b, a) else some (a, b)) else none
  | _, _ => none

/-- The child filter of the source's `forwardChildAdj`: scan the children in
ascending order, skip bytes before `start`, stop at the first byte after
`stop`. -/
def forwardAdmissible (start stop : Byte) : List (Node V) → List (Node V)
  | [] => []
  | c :: cs =>
    if c.keyByte < start then forwardAdmissible start stop cs
    else if stop < c.keyByte then []
    else c :: forwardAdmissible start stop cs

/-- The child filter of the source's `reverseChildAdj`, applied to the
reversed children: scan in descending order, skip bytes after `start`, stop
at the first byte before `stop`. -/
def revAdmissible (start stop : Byte) : List (Node V) → List (Node V)
  | [] => []
  | c :: cs =>
    if start < c.keyByte then revAdmissible start stop cs
    else if c.keyByte < stop then []
    else c :: revAdmissible start stop cs

/-- The ordered admissible children produced by the source's
`forwardChildAdj` for one node. -/
def forwardChildren (bds : Bounds) (pfx : Key) (cs : List (Node V)) : List (Node V) :=
  match bds.childBounds pfx with
  | none => []
  | some (start, stop) => forwardAdmissible start stop cs

/-- The ordered admissible children produced by the source's
`reverseChildAdj` for one node (descending order). -/
def reverseChildren (bds : Bounds) (pfx : Key) (cs : List (Node V)) : List (Node V) :=
  match bds.childBounds pfx with
  | none => []
  | some (start, stop) => revAdmissible start stop cs.reverse

theorem Node.sizeOf_lt_of_mem [SizeOf V] {c n : Node V} (h : c ∈ n.children) :
    sizeOf c < sizeOf n := by
  cases n with
  | mk v cs kb t =>
    simp only [Node.children] at h
    have := List.sizeOf_lt_of_mem h
    simp only [Node.mk.sizeOf_spec]
    omega

theorem mem_of_mem_forwardAdmissible {start stop : Byte} {cs : List (Node V)} {c : Node V}
    (h : c ∈ forwardAdmissible start stop cs) : c ∈ cs := by
  induction cs with
  | nil => simp [forwardAdmissible] at h
  | cons a as ih =>
    rw [forwardAdmissible] at h
    split at h
    · exact List.mem_cons_of_mem a (ih h)
    · split at h
      · simp at h
      · rcases List.mem_cons.mp h with h | h
        · exact h ▸ List.mem_cons_self a as
        · exact List.mem_cons_of_mem a (ih h)

theorem mem_of_mem_revAdmissible {start stop : Byte} {cs : List (Node V)} {c : Node V}
    (h : c ∈ revAdmissible start stop cs) : c ∈ cs := by
  induction cs with
  | nil => simp [revAdmissible] at h
  | cons a as ih =>
    rw [revAdmissible] at h
    split at h
    · exact List.mem_cons_of_mem a (ih h)
    · split at h
      · simp at h
      · rcases List.mem_cons.mp h with h | h
        · exact h ▸ List.mem_cons_self a as
        · exact List.mem_cons_of_mem a (ih h)

theorem mem_of_mem_forwardChildren {bds : Bounds} {pfx : Key} {cs : List (Node V)} {c : Node V}
    (h : c ∈ forwardChildren bds pfx cs) : c ∈ cs := by
  rw [forwardChildren] at h
  split at h
  · simp at h
  · exact mem_of_mem_forwardAdmissible h

theorem mem_of_mem_reverseChildren {bds : Bounds} {pfx : Key} {cs : List (Node V)} {c : Node V}
    (h : c ∈ reverseChildren bds pfx cs) : c ∈ cs := by
  rw [reverseChildren] at h
  split at h
  · simp at h
  · exact List.mem_reverse.mp (mem_of_mem_revAdmissible h)

/-- The pre-order walk of the source's `preOrder` traverser driven by
`forwardChildAdj`, as the list of visited (accumulated key, node) pairs:
a node is visited before its admissible children, children in ascending
byte order. -/
def preVisit (bds : Bounds) (pfx : Key) : Node V → List (Key × Node V)
  | n =>
    (pfx, n) ::
      (forwardChildren bds pfx n.children).attach.flatMap
        (fun c => preVisit bds (pfx ++ [c.1.keyByte]) c.1)
  termination_by n => sizeOf n
  decreasing_by
    exact Node.sizeOf_lt_of_mem (mem_of_mem_forwardChildren c.2)

/-- Modelled from the spec: the post-order walk used for reverse scans (the
`postOrder` traverser is not among the provided sources): recurse into each
admissible child first, in descending byte order as supplied by
`reverseChildAdj`, then yield the current path. -/
def postVisit (bds : Bounds) (pfx : Key) : Node V → List (Key × Node V)
  | n =>
    ((reverseChildren bds pfx n.children).attach.flatMap
        (fun c => postVisit bds (pfx ++ [c.1.keyByte]) c.1)) ++ [(pfx, n)]
  termination_by n => sizeOf n
  decreasing_by
    exact Node.sizeOf_lt_of_mem (mem_of_mem_reverseChildren c.2)

theorem preVisit_def (bds : Bounds) (pfx : Key) (n : Node V) :
    preVisit bds pfx n =
      (pfx, n) ::
        (forwardChildren bds pfx n.children).flatMap
          (fun c => preVisit bds (pfx ++ [c.keyByte]) c) := by
  rw [preVisit]
  congr 1
  rw [List.flatMap, List.flatMap,
    List.attach_map_val (forwardChildren bds pfx n.children)
      (fun c => preVisit bds (pfx ++ [c.keyByte]) c)]

theorem postVisit_def (bds : Bounds) (pfx : Key) (n : Node V) :
    postVisit bds pfx n =
      ((reverseChildren bds pfx n.children).flatMap
        (fun c => postVisit bds (pfx ++ [c.keyByte]) c)) ++ [(pfx, n)] := by
  rw [postVisit]
  congr 1
  rw [List.flatMap, List.flatMap,
    List.attach_map_val (reverseChildren bds pfx n.children)
      (fun c => postVisit bds (pfx ++ [c.keyByte]) c)]

/-- The consuming loop of the source's `node.Range`: for every visited path,
a comparison below the bounds skips the entry, one above the bounds stops the
whole sequence, and an in-bounds terminal node is yielded. -/
def rangeLoop (bds : Bounds) : List (Key × Node V) → List (Key × V)
  | [] => []
  | (k, nd) :: rest =>
    match bds.compareKey k with
    | .lt => rangeLoop bds rest
    | .gt => []
    | .eq =>
      if nd.isTerminal then (k, nd.value) :: rangeLoop bds rest
      else rangeLoop bds rest

/-- Translated from the source's `node.Range`: a reverse bounds drives the
post-order walk with `reverseChildAdj`, a forward bounds the pre-order walk
with `forwardChildAdj`; the visited paths are filtered and cut by
`rangeLoop`.  (The source's defensive `bounds.Clone()` is the identity on a
pure value.) -/
def Node.range (n : Node V) (bds : Bounds) : List (Key × V) :=
  if bds.isReverse then rangeLoop bds (postVisit bds [] n)
  else rangeLoop bds (preVisit bds [] n)

/-- Adjacent children are strictly ascending by key byte (hence no
duplicates): the core children-collection invariant. -/
def sortedByKeyByte : List (Node V) → Bool
  | [] => true
  | [_] => true
  | a :: b :: rest => decide (a.keyByte < b.keyByte) && sortedByKeyByte (b :: rest)

/-- Every node in the tree has a strictly sorted children collection. -/
def Node.wfB : Node V → Bool
  | .mk _ cs _ _ => sortedByKeyByte cs && cs.attach.all (fun c => c.1.wfB)
  termination_by n => sizeOf n
  decreasing_by
    exact Node.sizeOf_lt_of_mem (by simpa [Node.children] using c.2)

theorem Node.wfB_mk (v : V) (cs : List (Node V)) (kb : Byte) (t : Bool) :
    (Node.mk v cs kb t).wfB = (sortedByKeyByte cs && cs.all (fun c => c.wfB)) := by
  rw [Node.wfB]
  congr 1
  rw [Bool.eq_iff_iff, List.all_eq_true, List.all_eq_true]
  constructor
  · intro h c hc
    exact h ⟨c, hc⟩ (List.mem_attach _ _)
  · intro h c _
    exact h c.1 c.2

/-- Every strict descendant of the root is live: terminal or with children.
(The root itself is allowed to be a non-terminal leaf: the empty trie.) -/
def Node.noDeadB : Node V → Bool
  | .mk _ cs _ _ =>
    cs.attach.all (fun c => (c.1.isTerminal || !c.1.children.isEmpty) && c.1.noDeadB)
  termination_by n => sizeOf n
  decreasing_by
    exact Node.sizeOf_lt_of_mem (by simpa [Node.children] using c.2)

theorem Node.noDeadB_mk (v : V) (cs : List (Node V)) (kb : Byte) (t : Bool) :
    (Node.mk v cs kb t).noDeadB =
      cs.all (fun c => (c.isTerminal || !c.children.isEmpty) && c.noDeadB) := by
  rw [Node.noDeadB]
  rw [Bool.eq_iff_iff, List.all_eq_true, List.all_eq_true]
  constructor
  · intro h c hc
    exact h ⟨c, hc⟩ (List.mem_attach _ _)
  · intro h c _
    exact h c.1 c.2

/-- The public `Put` entry point with Go's nil/non-nil key distinction:
`none` is Go's nil slice and panics (`Except.error`); any non-nil key —
including the empty one — is processed normally. -/
def Node.putChecked [Inhabited V] (n : Node V) (key : Option Key) (value : V) :
    Except String (Node V × V × Bool) :=
  match key with
  | none => .error "key must be non-nil"
  | some k => .ok (n.put k value)

/-- The public `Get` entry point with Go's nil/non-nil key distinction. -/
def Node.getChecked [Inhabited V] (n : Node V) (key : Option Key) :
    Except String (V × Bool) :=
  match key with
  | none => .error "key must be non-nil"
  | some k => .ok (n.get k)

/-- The public `Delete` entry point with Go's nil/non-nil key distinction. -/
def Node.deleteChecked [Inhabited V] (n : Node V) (key : Option Key) :
    Except String (Node V × V × Bool) :=
  match key with
  | none => .error "key must be non-nil"
  | some k => .ok (n.delete k)

theorem keyCmp_self (k : Key) : keyCmp k k = .eq := by
  induction k with
  | nil => rfl
  | cons a as ih => simp [keyCmp, lt_irrefl, ih]

theorem keyCmp_eq_iff {a b : Key} : keyCmp a b = .eq ↔ a = b := by
  induction a generalizing b with
  | nil => cases b <;> simp [keyCmp]
  | cons x as ih =>
    cases b with
    | nil => simp [keyCmp]
    | cons y bs =>
      rw [keyCmp]
      rcases lt_trichotomy x y with h | h | h
      · simp [h, h.ne]
      · subst h
        simp [lt_irrefl, ih]
      · simp [h, h.ne', not_lt_of_gt h]

theorem keyCmp_swap (a b : Key) : keyCmp b a = (keyCmp a b).swap := by
  induction a generalizing b with
  | nil => cases b <;> simp [keyCmp, Ordering.swap]
  | cons x as ih =>
    cases b with
    | nil => simp [keyCmp, Ordering.swap]
    | cons y bs =>
      rw [keyCmp, keyCmp]
      rcases lt_trichotomy x y with h | h | h
      · simp [h, not_lt_of_gt h, Ordering.swap]
      · subst h
        simp [lt_irrefl, ih]
      · simp [h, not_lt_of_gt h, Ordering.swap]

theorem keyCmp_trans_lt_le {a b c : Key} (h1 : keyCmp a b = .lt) (h2 : keyCmp b c ≠ .gt) :
    keyCmp a c = .lt := by
  induction a generalizing b c with
  | nil =>
    cases b with
    | nil => simp [keyCmp] at h1
    | cons y bs =>
      cases c with
      | nil => simp [keyCmp] at h2
      | cons z cs => simp [keyCmp]
  | cons x as ih =>
    cases b with
    | nil => simp [keyCmp] at h1
    | cons y bs =>
      cases c with
      | nil => simp [keyCmp] at h2
      | cons z cs =>
        rw [keyCmp] at h1 h2 ⊢
        rcases lt_trichotomy x y with hxy | hxy | hxy
        · rcases lt_trichotomy y z with hyz | hyz | hyz
          · simp [lt_trans hxy hyz]
          · subst hyz
            simp [hxy]
          · simp [hyz, not_lt_of_gt hyz] at h2
        · subst hxy
          simp [lt_irrefl] at h1
          rcases lt_trichotomy x z with hxz | hxz | hxz
          · simp [hxz]
          · subst hxz
            simp [lt_irrefl] at h2 ⊢
            exact ih h1 h2
          · simp [hxz, not_lt_of_gt hxz] at h2
        · simp [hxy, not_lt_of_gt hxy] at h1

theorem keyCmp_trans_le_lt {a b c : Key} (h1 : keyCmp a b ≠ .gt) (h2 : keyCmp b c = .lt) :
    keyCmp a c = .lt := by
  induction a generalizing b c with
  | nil =>
    cases c with
    | nil =>
      cases b with
      | nil => simp [keyCmp] at h2
      | cons y bs => simp [keyCmp] at h2
    | cons z cs => simp [keyCmp]
  | cons x as ih =>
    cases b with
    | nil => simp [keyCmp] at h1
    | cons y bs =>
      cases c with
      | nil => simp [keyCmp] at h2
      | cons z cs =>
        rw [keyCmp] at h1 h2 ⊢
        rcases lt_trichotomy x y with hxy | hxy | hxy
        · rcases lt_trichotomy y z with hyz | hyz | hyz
          · simp [lt_trans hxy hyz]
          · subst hyz
            simp [hxy]
          · simp [hyz, not_lt_of_gt hyz] at h2
        · subst hxy
          simp [lt_irrefl] at h1
          rcases lt_trichotomy x z with hxz | hxz | hxz
          · simp [hxz]
          · subst hxz
            simp [lt_irrefl] at h2 ⊢
            exact ih h1 h2
          · simp [hxz, not_lt_of_gt hxz] at h2
        · simp [hxy, not_lt_of_gt hxy] at h1

theorem keyCmp_trans_lt_lt {a b c : Key} (h1 : keyCmp a b = .lt) (h2 : keyCmp b c = .lt) :
    keyCmp a c = .lt :=
  keyCmp_trans_lt_le h1 (by simp [h2])

theorem keyCmp_append {p x y : Key} : keyCmp (p ++ x) (p ++ y) = keyCmp x y := by
  induction p with
  | nil => rfl
  | cons a as ih => simp [keyCmp, lt_irrefl, ih]

theorem keyCmp_pfx_lt {p s : Key} (h : s ≠ []) : keyCmp p (p ++ s) = .lt := by
  have := @keyCmp_append p [] s
  simp at this
  rw [this]
  cases s with
  | nil => exact absurd rfl h
  | cons b bs => rfl

theorem keyCmp_append_byte_lt {a b : Byte} (h : a < b) (p x y : Key) :
    keyCmp (p ++ a :: x) (p ++ b :: y) = .lt := by
  rw [keyCmp_append, keyCmp]
  simp [h]

theorem getD_append_length (l₁ : List α) (c : α) (l₂ : List α) (d : α) :
    (l₁ ++ c :: l₂).getD l₁.length d = c := by
  induction l₁ with
  | nil => rfl
  | cons a as ih => simpa using ih

theorem set_append_length (l₁ : List α) (c x : α) (l₂ : List α) :
    (l₁ ++ c :: l₂).set l₁.length x = l₁ ++ x :: l₂ := by
  induction l₁ with
  | nil => rfl
  | cons a as ih => simp [ih]

theorem eraseIdx_append_length (l₁ : List α) (c : α) (l₂ : List α) :
    (l₁ ++ c :: l₂).eraseIdx l₁.length = l₁ ++ l₂ := by
  induction l₁ with
  | nil => rfl
  | cons a as ih => simpa using ih

theorem insertAt_append_length (x : α) (l₁ l₂ : List α) :
    insertAt x l₁.length (l₁ ++ l₂) = l₁ ++ x :: l₂ := by
  induction l₁ with
  | nil => cases l₂ <;> rfl
  | cons a as ih => simpa [insertAt] using ih

/-- Characterization of a successful `search`: the children split around the
unique first child carrying the searched byte, every child before it having a
strictly smaller byte. -/
theorem searchList_found {b : Byte} {cs : List (Node V)} (h : (searchList b cs).2 = true) :
    ∃ l₁ c l₂, cs = l₁ ++ c :: l₂ ∧ (searchList b cs).1 = l₁.length ∧ c.keyByte = b ∧
      ∀ a ∈ l₁, a.keyByte < b := by
  induction cs with
  | nil => simp [searchList] at h
  | cons c cs ih =>
    rw [searchList] at h
    by_cases he : b = c.keyByte
    · exact ⟨[], c, cs, by simp, by simp [searchList, he], he.symm, by simp⟩
    · by_cases hlt : b < c.keyByte
      · simp [he, hlt, searchList] at h
      · simp only [he, hlt, if_false] at h
        obtain ⟨l₁, c', l₂, hsplit, hidx, hbyte, hlt₁⟩ := ih h
        refine ⟨c :: l₁, c', l₂, by simp [hsplit], ?_, hbyte, ?_⟩
        · simp [searchList, he, hlt, hidx]
        · intro a ha
          rcases List.mem_cons.mp ha with rfl | ha
          · exact lt_of_le_of_ne (not_lt.mp hlt) (Ne.symm he)
          · exact hlt₁ a ha

/-- Characterization of an unsuccessful `search`: the index is the sorted
insertion position — everything before it has a smaller byte and the child at
the position (if any) a larger one. -/
theorem searchList_not_found {b : Byte} {cs : List (Node V)} (h : (searchList b cs).2 = false) :
    ∃ l₁ l₂, cs = l₁ ++ l₂ ∧ (searchList b cs).1 = l₁.length ∧
      (∀ a ∈ l₁, a.keyByte < b) ∧ (∀ c cs', l₂ = c :: cs' → b < c.keyByte) := by
  induction cs with
  | nil => exact ⟨[], [], rfl, rfl, by simp, by simp⟩
  | cons c cs ih =>
    rw [searchList] at h
    by_cases he : b = c.keyByte
    · simp [he] at h
    · by_cases hlt : b < c.keyByte
      · refine ⟨[], c :: cs, rfl, by simp [searchList, he, hlt], by simp, ?_⟩
        intro c' cs' hc
        cases hc
        exact hlt
      · simp only [he, hlt, if_false] at h
        obtain ⟨l₁, l₂, hsplit, hidx, hlt₁, hgt₂⟩ := ih h
        refine ⟨c :: l₁, l₂, by simp [hsplit], ?_, ?_, hgt₂⟩
        · simp [searchList, he, hlt, hidx]
        · intro a ha
          rcases List.mem_cons.mp ha with rfl | ha
          · exact lt_of_le_of_ne (not_lt.mp hlt) (Ne.symm he)
          · exact hlt₁ a ha

/-- `search` finds the child with byte `b` placed after smaller bytes. -/
theorem searchList_append_found {b : Byte} {l₁ : List (Node V)} {c : Node V} (l₂ : List (Node V))
    (hlt : ∀ a ∈ l₁, a.keyByte < b) (hb : c.keyByte = b) :
    searchList b (l₁ ++ c :: l₂) = (l₁.length, true) := by
  induction l₁ with
  | nil => simp [searchList, hb.symm]
  | cons a as ih =>
    have ha := hlt a (by simp)
    rw [List.cons_append, searchList, ih (fun x hx => hlt x (by simp [hx]))]
    simp [ha.ne', not_lt_of_gt ha]

/-- `search` misses when every byte before the seam is smaller and every byte
from the seam on is larger. -/
theorem searchList_append_not_found {b : Byte} {l₁ l₂ : List (Node V)}
    (hlt : ∀ a ∈ l₁, a.keyByte < b) (hgt : ∀ c cs', l₂ = c :: cs' → b < c.keyByte) :
    (searchList b (l₁ ++ l₂)).2 = false := by
  induction l₁ with
  | nil =>
    cases l₂ with
    | nil => rfl
    | cons c cs' =>
      have := hgt c cs' rfl
      simp [searchList, this, this.ne]
  | cons a as ih =>
    have ha := hlt a (by simp)
    rw [List.cons_append, searchList]
    simp only [ha.ne', not_lt_of_gt ha, if_false]
    exact ih (fun x hx => hlt x (by simp [hx]))

theorem put_keyByte [Inhabited V] (n : Node V) (k : Key) (v : V) :
    (n.put k v).1.keyByte = n.keyByte := by
  cases k with
  | nil =>
    rw [Node.put]
    split <;> rfl
  | cons b rest =>
    rw [Node.put]
    rcases hs : n.search b with ⟨i, found⟩
    cases found <;> rfl

theorem mkChain_keyByte [Inhabited V] (v : V) (b : Byte) (rest : Key) :
    (mkChain v b rest).keyByte = b := by
  cases rest <;> rfl

theorem put_cons_found [Inhabited V] {n : Node V} {b : Byte} {i : Nat} (rest : Key) (v : V)
    (hs : n.search b = (i, true)) :
    n.put (b :: rest) v =
      (.mk n.value (n.children.set i ((n.children.getD i (dfltNode V)).put rest v).1)
        n.keyByte n.isTerminal,
       ((n.children.getD i (dfltNode V)).put rest v).2) := by
  rw [Node.put, hs]

theorem put_cons_not_found [Inhabited V] {n : Node V} {b : Byte} {i : Nat} (rest : Key) (v : V)
    (hs : n.search b = (i, false)) :
    n.put (b :: rest) v =
      (.mk n.value (insertAt (mkChain v b rest) i n.children) n.keyByte n.isTerminal,
        default, false) := by
  rw [Node.put, hs]

theorem get_cons_found [Inhabited V] {n : Node V} {b : Byte} {i : Nat} (rest : Key)
    (hs : n.search b = (i, true)) :
    n.get (b :: rest) = (n.children.getD i (dfltNode V)).get rest := by
  rw [Node.get, hs]

theorem get_cons_not_found [Inhabited V] {n : Node V} {b : Byte} {i : Nat} (rest : Key)
    (hs : n.search b = (i, false)) :
    n.get (b :: rest) = (default, false) := by
  rw [Node.get, hs]

theorem nodeAt_cons_found [Inhabited V] {n : Node V} {b : Byte} {i : Nat} (rest : Key)
    (hs : n.search b = (i, true)) :
    n.nodeAt (b :: rest) = (n.children.getD i (dfltNode V)).nodeAt rest := by
  rw [Node.nodeAt, hs]

theorem nodeAt_cons_not_found [Inhabited V] {n : Node V} {b : Byte} {i : Nat} (rest : Key)
    (hs : n.search b = (i, false)) :
    n.nodeAt (b :: rest) = none := by
  rw [Node.nodeAt, hs]

theorem delAux_cons_found [Inhabited V] {n : Node V} {b : Byte} {i : Nat} (rest : Key)
    (hs : n.search b = (i, true)) :
    delAux n (b :: rest) =
      match delAux (n.children.getD i (dfltNode V)) rest with
      | none => none
      | some (c, prev) =>
        if !c.isTerminal && c.children.isEmpty then
          some (.mk n.value (n.children.eraseIdx i) n.keyByte n.isTerminal, prev)
        else
          some (.mk n.value (n.children.set i c) n.keyByte n.isTerminal, prev) := by
  rw [delAux, hs]

theorem delAux_cons_not_found [Inhabited V] {n : Node V} {b : Byte} {i : Nat} (rest : Key)
    (hs : n.search b = (i, false)) :
    delAux n (b :: rest) = none := by
  rw [delAux, hs]

theorem delAux_keyByte [Inhabited V] {n n' : Node V} {k : Key} {prev : V}
    (h : delAux n k = some (n', prev)) : n'.keyByte = n.keyByte := by
  cases k with
  | nil =>
    rw [delAux] at h
    split at h
    · cases h
      rfl
    · cases h
  | cons b rest =>
    rcases hs : n.search b with ⟨i, found⟩
    cases found
    · rw [delAux_cons_not_found rest hs] at h
      cases h
    · rw [delAux_cons_found rest hs] at h
      rcases hd : delAux (n.children.getD i (dfltNode V)) rest with _ | ⟨c, prev'⟩ <;>
        rw [hd] at h
      · cases h
      · dsimp only at h
        by_cases hc : (!c.isTerminal && c.children.isEmpty) = true
        · rw [if_pos hc] at h
          cases h
          rfl
        · rw [if_neg hc] at h
          cases h
          rfl

theorem mkChain_get [Inhabited V] (v : V) (b : Byte) (rest : Key) :
    (mkChain v b rest).get rest = (v, true) := by
  induction rest generalizing b with
  | nil => rfl
  | cons b' rest' ih =>
    rw [mkChain]
    have hs : (Node.mk default [mkChain v b' rest'] b false).search b' = (0, true) := by
      have := mkChain_keyByte v b' rest'
      simp [Node.search, Node.children, searchList, this]
    rw [get_cons_found rest' hs]
    simpa [Node.children] using ih b'

/-- C2: for every trie state, every key (the empty key included) and every
value, `Put(k, v)` followed by `Get(k)` yields `(v, true)`. -/
theorem put_get_roundtrip [Inhabited V] (n : Node V) (k : Key) (v : V) :
    (n.put k v).1.get k = (v, true) := by
  induction k generalizing n with
  | nil =>
    rw [Node.put]
    split <;> rw [Node.get] <;> rfl
  | cons b rest ih =>
    rcases hs : n.search b with ⟨i, found⟩
    cases found
    · have hs' : searchList b n.children = (i, false) := hs
      obtain ⟨l₁, l₂, hsplit, hidx, hlt₁, hgt₂⟩ := searchList_not_found (by rw [hs'])
      rw [hs'] at hidx
      simp at hidx
      subst hidx
      rw [put_cons_not_found rest v hs, hsplit, insertAt_append_length]
      have hsrch : (Node.mk n.value (l₁ ++ mkChain v b rest :: l₂) n.keyByte
          n.isTerminal).search b = (l₁.length, true) := by
        simpa [Node.search, Node.children] using
          searchList_append_found l₂ hlt₁ (mkChain_keyByte v b rest)
      rw [get_cons_found rest hsrch]
      simp only [Node.children_mk]
      rw [getD_append_length]
      exact mkChain_get v b rest
    · have hs' : searchList b n.children = (i, true) := hs
      obtain ⟨l₁, c, l₂, hsplit, hidx, hbyte, hlt₁⟩ := searchList_found (by rw [hs'])
      rw [hs'] at hidx
      simp at hidx
      subst hidx
      rw [put_cons_found rest v hs]
      have hgetD : n.children.getD l₁.length (dfltNode V) = c := by
        rw [hsplit, getD_append_length]
      rw [hgetD, hsplit, set_append_length]
      have hb' : ((c.put rest v).1).keyByte = b := by
        rw [put_keyByte, hbyte]
      have hsrch : (Node.mk n.value (l₁ ++ (c.put rest v).1 :: l₂) n.keyByte
          n.isTerminal).search b = (l₁.length, true) := by
        simpa [Node.search, Node.children] using searchList_append_found l₂ hlt₁ hb'
      rw [get_cons_found rest hsrch]
      simp only [Node.children_mk]
      rw [getD_append_length]
      exact ih c

/-- C9: a nil key passed to `Put`, `Get` or `Delete` is a programming error
that aborts the operation (the panic is modelled as `Except.error`), while a
non-nil empty key is processed normally. -/
theorem nil_key_is_error [Inhabited V] (n : Node V) (v : V) :
    n.putChecked none v = .error "key must be non-nil" ∧
    n.getChecked none = .error "key must be non-nil" ∧
    n.deleteChecked none = .error "key must be non-nil" ∧
    n.putChecked (some []) v = .ok (n.put [] v) ∧
    n.getChecked (some []) = .ok (n.get []) ∧
    n.deleteChecked (some []) = .ok (n.delete []) :=
  ⟨rfl, rfl, rfl, rfl, rfl, rfl⟩

/-- `Delete` reports not-found exactly when `Get` does: the path does not
fully exist or the final node is not terminal. -/
theorem delAux_none_iff_get [Inhabited V] (n : Node V) (k : Key) :
    delAux n k = none ↔ (n.get k).2 = false := by
  induction k generalizing n with
  | nil =>
    rw [delAux, Node.get]
    cases ht : n.isTerminal <;> simp [ht]
  | cons b rest ih =>
    rcases hs : n.search b with ⟨i, found⟩
    cases found
    · rw [delAux_cons_not_found rest hs, get_cons_not_found rest hs]
      simp
    · rw [delAux_cons_found rest hs, get_cons_found rest hs]
      rcases hd : delAux (n.children.getD i (dfltNode V)) rest with _ | ⟨c, prev⟩
      · dsimp only
        exact iff_of_true rfl ((ih _).mp hd)
      · dsimp only
        have hg2 : ((n.children.getD i (dfltNode V)).get rest).2 = true := by
          rcases hg : ((n.children.getD i (dfltNode V)).get rest).2
          · have hnone := (ih _).mpr hg
            rw [hd] at hnone
            cases hnone
          · rfl
        refine iff_of_false ?_ (by intro hfalse; rw [hfalse] at hg2; cases hg2)
        intro hcontra
        split at hcontra <;> cases hcontra

/-- C10: whenever `Delete` returns `existed = false` — equivalently, `Get`
does not find the key — the trie is left completely unchanged. -/
theorem delete_not_found_unchanged [Inhabited V] (n : Node V) (k : Key) :
    ((n.delete k).2.2 = false ↔ (n.get k).2 = false) ∧
    ((n.delete k).2.2 = false → (n.delete k).1 = n) := by
  constructor
  · rw [Node.delete]
    rcases hd : delAux n k with _ | ⟨n', prev⟩
    · simp [(delAux_none_iff_get n k).mp hd]
    · have : (n.get k).2 = true := by
        rcases hg : (n.get k).2
        · exact absurd ((delAux_none_iff_get n k).mpr hg) (by simp [hd])
        · rfl
      simp [this]
  · intro h
    rw [Node.delete] at h ⊢
    rcases hd : delAux n k with _ | ⟨n', prev⟩
    · rfl
    · rw [hd] at h
      simp at h

/-- Concrete instance for the C10 theorem: deleting the absent key
`[0x11, 0x01]` from a two-key trie reports not-found and returns the tree
unchanged. -/
theorem delete_not_found_unchanged_witness :
    (((((newPointerTrie Nat).put [0x10] 1).1.put [0x11] 2).1.delete [0x11, 0x01]).2.2
        = false) ∧
    (((((newPointerTrie Nat).put [0x10] 1).1.put [0x11] 2).1.delete [0x11, 0x01]).1
        = (((newPointerTrie Nat).put [0x10] 1).1.put [0x11] 2).1) :=
  ⟨rfl, (delete_not_found_unchanged (((newPointerTrie Nat).put [0x10] 1).1.put [0x11] 2).1
      [0x11, 0x01]).2 rfl⟩

theorem put_nodeAt_overwrite [Inhabited V] (n nd : Node V) (k : Key) (v : V)
    (h : n.nodeAt k = some nd) :
    (n.put k v).2 = (if nd.isTerminal then (nd.value, true) else (default, false)) ∧
    (n.put k v).1.nodeAt k = some (.mk v nd.children nd.keyByte true) := by
  induction k generalizing n with
  | nil =>
    rw [Node.nodeAt] at h
    cases h
    rw [Node.put]
    cases ht : nd.isTerminal <;>
      simp [ht, Node.nodeAt]
  | cons b rest ih =>
    rcases hs : n.search b with ⟨i, found⟩
    cases found
    · rw [nodeAt_cons_not_found rest hs] at h
      cases h
    · rw [nodeAt_cons_found rest hs] at h
      obtain ⟨hres, hat⟩ := ih _ h
      rw [put_cons_found rest v hs]
      refine ⟨hres, ?_⟩
      have hs' : searchList b n.children = (i, true) := hs
      obtain ⟨l₁, c, l₂, hsplit, hidx, hbyte, hlt₁⟩ := searchList_found (by rw [hs'])
      rw [hs'] at hidx
      simp at hidx
      subst hidx
      have hb' : ((c.put rest v).1).keyByte = b := by rw [put_keyByte, hbyte]
      have hgetD : n.children.getD l₁.length (dfltNode V) = c := by
        rw [hsplit, getD_append_length]
      have hsrch : (Node.mk n.value (n.children.set l₁.length
          ((n.children.getD l₁.length (dfltNode V)).put rest v).1) n.keyByte
          n.isTerminal).search b = (l₁.length, true) := by
        rw [hgetD]
        simpa [Node.search, hsplit, set_append_length] using
          searchList_append_found l₂ hlt₁ hb'
      rw [nodeAt_cons_found rest hsrch]
      simp only [Node.children_mk, hgetD, hsplit, set_append_length, getD_append_length]
      rw [hsplit, getD_append_length] at hat
      exact hat

/-- C6: on a key whose full byte path already exists, `Put` overwrites that
node's value and terminal flag in place and returns the prior value paired
with `true` when the node was terminal, and the zero value paired with
`false` when it was not. -/
theorem put_overwrite_existing [Inhabited V] (n nd : Node V) (k : Key) (v : V)
    (h : n.nodeAt k = some nd) :
    (n.put k v).2 = (if nd.isTerminal then (nd.value, true) else (default, false)) ∧
    (n.put k v).1.nodeAt k = some (.mk v nd.children nd.keyByte true) :=
  put_nodeAt_overwrite n nd k v h

/-- Concrete instance for the C6 theorem: overwriting the stored key `[0x10]`
(which has a child) returns the prior value with `true` and updates the node
in place. -/
theorem put_overwrite_existing_witness :
    (((((newPointerTrie Nat).put [0x10] 1).1.put [0x10, 0x20] 2).1.nodeAt [0x10]
        = some (.mk 1 [.mk 2 [] 0x20 true] 0x10 true)) ∧
     (((((newPointerTrie Nat).put [0x10] 1).1.put [0x10, 0x20] 2).1.put [0x10] 9).2
        = (if (Node.mk 1 [Node.mk 2 [] 0x20 true] 0x10 true).isTerminal
           then ((Node.mk 1 [Node.mk 2 [] 0x20 true] 0x10 true).value, true)
           else ((default : Nat), false)) ∧
      ((((newPointerTrie Nat).put [0x10] 1).1.put [0x10, 0x20] 2).1.put [0x10] 9).1.nodeAt
          [0x10]
        = some (.mk 9 (Node.mk 1 [Node.mk 2 [] 0x20 true] 0x10 true).children
            (Node.mk 1 [Node.mk 2 [] 0x20 true] 0x10 true).keyByte true))) :=
  ⟨rfl, put_overwrite_existing
    ((((newPointerTrie Nat).put [0x10] 1).1.put [0x10, 0x20] 2).1)
    (.mk 1 [.mk 2 [] 0x20 true] 0x10 true) [0x10] 9 rfl⟩

/-- Induction over a node and all its descendants. -/
theorem Node.ind {V : Type} {motive : Node V → Prop}
    (h : ∀ v cs kb t, (∀ c ∈ cs, motive c) → motive (Node.mk v cs kb t)) :
    ∀ n, motive n
  | .mk v cs kb t => h v cs kb t (fun c hc => Node.ind h c)
  termination_by n => sizeOf n
  decreasing_by exact Node.sizeOf_lt_of_mem (by simpa using hc)

/-- The children-collection invariant as a `Pairwise` proposition. -/
def sortedP (cs : List (Node V)) : Prop :=
  cs.Pairwise (fun a c => a.keyByte < c.keyByte)

theorem sortedByKeyByte_iff {cs : List (Node V)} :
    sortedByKeyByte cs = true ↔ sortedP cs := by
  have hchain : ∀ ds : List (Node V), sortedByKeyByte ds = true ↔
      List.Chain' (fun a c => a.keyByte < c.keyByte) ds := by
    intro ds
    induction ds with
    | nil => simp [sortedByKeyByte]
    | cons a ds ih =>
      cases ds with
      | nil => simp [sortedByKeyByte]
      | cons b ds' =>
        rw [sortedByKeyByte, List.chain'_cons, Bool.and_eq_true, decide_eq_true_eq]
        exact and_congr Iff.rfl ih
  rw [hchain, sortedP]
  exact @List.chain'_iff_pairwise (Node V) (fun a c => a.keyByte < c.keyByte)
    ⟨fun _ _ _ h1 h2 => lt_trans h1 h2⟩ cs

theorem Node.wfB_iff (n : Node V) :
    n.wfB = true ↔ (sortedP n.children ∧ ∀ c ∈ n.children, c.wfB = true) := by
  cases n with
  | mk v cs kb t =>
    rw [Node.wfB_mk, Bool.and_eq_true, List.all_eq_true, sortedByKeyByte_iff,
      Node.children_mk]

theorem mkChain_wfB [Inhabited V] (v : V) (b : Byte) (rest : Key) :
    (mkChain v b rest).wfB = true := by
  induction rest generalizing b with
  | nil =>
    rw [mkChain, Node.wfB_iff]
    refine ⟨by simp [sortedP], by simp⟩
  | cons b' rest' ih =>
    rw [mkChain, Node.wfB_iff]
    refine ⟨by simp [sortedP], ?_⟩
    intro c hc
    simp only [Node.children_mk, List.mem_singleton] at hc
    subst hc
    exact ih b'

theorem sortedP_set_keyByte_eq {l₁ l₂ : List (Node V)} {c c' : Node V}
    (h : sortedP (l₁ ++ c :: l₂)) (he : c'.keyByte = c.keyByte) :
    sortedP (l₁ ++ c' :: l₂) := by
  rw [sortedP, List.pairwise_append] at h ⊢
  obtain ⟨h₁, h₂, hx⟩ := h
  rw [List.pairwise_cons] at h₂ ⊢
  refine ⟨h₁, ⟨fun a ha => he ▸ h₂.1 a ha, h₂.2⟩, ?_⟩
  intro a ha y hy
  rcases List.mem_cons.mp hy with rfl | hy
  · exact he ▸ hx a ha c (by simp)
  · exact hx a ha y (by simp [hy])

theorem sortedP_insert {l₁ l₂ : List (Node V)} {x : Node V}
    (h : sortedP (l₁ ++ l₂)) (hlt : ∀ a ∈ l₁, a.keyByte < x.keyByte)
    (hgt : ∀ c cs', l₂ = c :: cs' → x.keyByte < c.keyByte) :
    sortedP (l₁ ++ x :: l₂) := by
  rw [sortedP, List.pairwise_append] at h ⊢
  obtain ⟨h₁, h₂, hx⟩ := h
  have hall : ∀ y ∈ l₂, x.keyByte < y.keyByte := by
    cases l₂ with
    | nil => simp
    | cons c cs' =>
      intro y hy
      rcases List.mem_cons.mp hy with rfl | hy
      · exact hgt y cs' rfl
      · exact lt_trans (hgt c cs' rfl) ((List.pairwise_cons.mp h₂).1 y hy)
  refine ⟨h₁, ?_, ?_⟩
  · rw [List.pairwise_cons]
    exact ⟨hall, h₂⟩
  · intro a ha y hy
    rcases List.mem_cons.mp hy with rfl | hy
    · exact hlt a ha
    · exact hx a ha y hy

theorem sortedP_erase {l₁ l₂ : List (Node V)} {c : Node V}
    (h : sortedP (l₁ ++ c :: l₂)) : sortedP (l₁ ++ l₂) := by
  rw [sortedP] at h ⊢
  exact h.sublist (List.Sublist.append_left (List.sublist_cons_self c l₂) l₁)

theorem put_wfB [Inhabited V] (n : Node V) (k : Key) (v : V) (h : n.wfB = true) :
    (n.put k v).1.wfB = true := by
  induction k generalizing n with
  | nil =>
    rw [Node.wfB_iff] at h
    rw [Node.put]
    split <;> (rw [Node.wfB_iff]; simpa using h)
  | cons b rest ih =>
    rw [Node.wfB_iff] at h
    obtain ⟨hsorted, hall⟩ := h
    rcases hs : n.search b with ⟨i, found⟩
    cases found
    · have hs' : searchList b n.children = (i, false) := hs
      obtain ⟨l₁, l₂, hsplit, hidx, hlt₁, hgt₂⟩ := searchList_not_found (by rw [hs'])
      rw [hs'] at hidx
      simp at hidx
      subst hidx
      rw [put_cons_not_found rest v hs, Node.wfB_iff]
      simp only [Node.children_mk]
      rw [hsplit, insertAt_append_length]
      constructor
      · refine sortedP_insert (hsplit ▸ hsorted) ?_ ?_
        · intro a ha
          rw [mkChain_keyByte]
          exact hlt₁ a ha
        · intro c cs' hc
          rw [mkChain_keyByte]
          exact hgt₂ c cs' hc
      · intro c hc
        rcases List.mem_append.mp hc with hc | hc
        · exact hall c (hsplit ▸ List.mem_append_left _ hc)
        · rcases List.mem_cons.mp hc with rfl | hc
          · exact mkChain_wfB v b rest
          · exact hall c (hsplit ▸ List.mem_append_right _ hc)
    · have hs' : searchList b n.children = (i, true) := hs
      obtain ⟨l₁, c, l₂, hsplit, hidx, hbyte, hlt₁⟩ := searchList_found (by rw [hs'])
      rw [hs'] at hidx
      simp at hidx
      subst hidx
      rw [put_cons_found rest v hs, Node.wfB_iff]
      simp only [Node.children_mk]
      have hgetD : n.children.getD l₁.length (dfltNode V) = c := by
        rw [hsplit, getD_append_length]
      rw [hgetD, hsplit, set_append_length]
      constructor
      · exact sortedP_set_keyByte_eq (hsplit ▸ hsorted) (by rw [put_keyByte])
      · intro c' hc'
        rcases List.mem_append.mp hc' with hc' | hc'
        · exact hall c' (hsplit ▸ List.mem_append_left _ hc')
        · rcases List.mem_cons.mp hc' with rfl | hc'
          · exact ih c (hall c (hsplit ▸ List.mem_append_right _ (List.mem_cons_self c l₂)))
          · exact hall c' (hsplit ▸ List.mem_append_right _ (List.mem_cons_of_mem _ hc'))

theorem delAux_wfB [Inhabited V] {n n' : Node V} {k : Key} {prev : V} (h : n.wfB = true)
    (hd : delAux n k = some (n', prev)) : n'.wfB = true := by
  induction k generalizing n n' prev with
  | nil =>
    rw [delAux] at hd
    split at hd
    · cases hd
      rw [Node.wfB_iff] at h ⊢
      simpa using h
    · cases hd
  | cons b rest ih =>
    rw [Node.wfB_iff] at h
    obtain ⟨hsorted, hall⟩ := h
    rcases hs : n.search b with ⟨i, found⟩
    cases found
    · rw [delAux_cons_not_found rest hs] at hd
      cases hd
    · have hs' : searchList b n.children = (i, true) := hs
      obtain ⟨l₁, c, l₂, hsplit, hidx, hbyte, hlt₁⟩ := searchList_found (by rw [hs'])
      rw [hs'] at hidx
      simp at hidx
      subst hidx
      rw [delAux_cons_found rest hs] at hd
      have hgetD : n.children.getD l₁.length (dfltNode V) = c := by
        rw [hsplit, getD_append_length]
      rw [hgetD] at hd
      rcases hdc : delAux c rest with _ | ⟨c', prev'⟩ <;> rw [hdc] at hd
      · cases hd
      · have hcwf : c'.wfB = true :=
          ih (hall c (hsplit ▸ List.mem_append_right _ (List.mem_cons_self c l₂))) hdc
        dsimp only at hd
        by_cases hc : (!c'.isTerminal && c'.children.isEmpty) = true
        · rw [if_pos hc] at hd
          cases hd
          rw [Node.wfB_iff]
          simp only [Node.children_mk]
          rw [hsplit, eraseIdx_append_length]
          constructor
          · exact sortedP_erase (hsplit ▸ hsorted)
          · intro x hx
            rcases List.mem_append.mp hx with hx | hx
            · exact hall x (hsplit ▸ List.mem_append_left _ hx)
            · exact hall x (hsplit ▸ List.mem_append_right _ (List.mem_cons_of_mem _ hx))
        · rw [if_neg hc] at hd
          cases hd
          rw [Node.wfB_iff]
          simp only [Node.children_mk]
          rw [hsplit, set_append_length]
          constructor
          · refine sortedP_set_keyByte_eq (hsplit ▸ hsorted) ?_
            rw [delAux_keyByte hdc]
          · intro x hx
            rcases List.mem_append.mp hx with hx | hx
            · exact hall x (hsplit ▸ List.mem_append_left _ hx)
            · rcases List.mem_cons.mp hx with rfl | hx
              · exact hcwf
              · exact hall x
                  (hsplit ▸ List.mem_append_right _ (List.mem_cons_of_mem _ hx))

/-- C7: after any completed `Put` or `Delete` on a well-formed trie, every
node's children collection remains strictly sorted ascending by key byte
(hence duplicate-free). -/
theorem children_sorted_invariant [Inhabited V] (n : Node V) (k : Key) (v : V)
    (h : n.wfB = true) :
    (n.put k v).1.wfB = true ∧ (n.delete k).1.wfB = true := by
  refine ⟨put_wfB n k v h, ?_⟩
  rw [Node.delete]
  rcases hd : delAux n k with _ | ⟨n', prev⟩
  · exact h
  · exact delAux_wfB h hd

/-- Concrete instance for the C7 theorem: a two-key trie stays well formed
after `Put` and `Delete` of the key `[0x11]`. -/
theorem children_sorted_invariant_witness :
    (Node.mk 0 [Node.mk 1 [] 0x10 true, Node.mk 2 [] 0x11 true] 0 false : Node Nat).wfB
        = true ∧
    (((Node.mk 0 [Node.mk 1 [] 0x10 true, Node.mk 2 [] 0x11 true] 0 false :
        Node Nat).put [0x11] 5).1.wfB = true ∧
     ((Node.mk 0 [Node.mk 1 [] 0x10 true, Node.mk 2 [] 0x11 true] 0 false :
        Node Nat).delete [0x11]).1.wfB = true) := by
  have hwf : (Node.mk 0 [Node.mk 1 [] 0x10 true, Node.mk 2 [] 0x11 true] 0 false :
      Node Nat).wfB = true := by
    rw [Node.wfB_iff]
    constructor
    · simp [sortedP]
    · intro c hc
      simp only [Node.children_mk, List.mem_cons, List.mem_singleton,
        List.not_mem_nil, or_false] at hc
      rcases hc with rfl | rfl <;> (rw [Node.wfB_iff]; simp [sortedP])
  exact ⟨hwf, children_sorted_invariant _ [0x11] 5 hwf⟩

/-- A node that is allowed to exist below the root: terminal or with
children (not "dead" in the spec's sense). -/
def Node.liveB (n : Node V) : Bool :=
  n.isTerminal || !n.children.isEmpty

theorem Node.noDeadB_iff (n : Node V) :
    n.noDeadB = true ↔ ∀ c ∈ n.children, c.liveB = true ∧ c.noDeadB = true := by
  cases n with
  | mk v cs kb t =>
    rw [Node.noDeadB_mk, List.all_eq_true, Node.children_mk]
    constructor
    · intro h c hc
      have := h c hc
      rw [Bool.and_eq_true] at this
      exact ⟨this.1, this.2⟩
    · intro h c hc
      rw [Bool.and_eq_true]
      exact ⟨(h c hc).1, (h c hc).2⟩

theorem put_liveB [Inhabited V] (n : Node V) (k : Key) (v : V) :
    (n.put k v).1.liveB = true := by
  cases k with
  | nil =>
    rw [Node.put]
    split <;> simp [Node.liveB]
  | cons b rest =>
    rcases hs : n.search b with ⟨i, found⟩
    cases found
    · have hs' : searchList b n.children = (i, false) := hs
      obtain ⟨l₁, l₂, hsplit, hidx, _, _⟩ := searchList_not_found (by rw [hs'])
      rw [hs'] at hidx
      simp at hidx
      subst hidx
      rw [put_cons_not_found rest v hs]
      simp [Node.liveB, hsplit, insertAt_append_length]
    · have hs' : searchList b n.children = (i, true) := hs
      obtain ⟨l₁, c, l₂, hsplit, hidx, _, _⟩ := searchList_found (by rw [hs'])
      rw [hs'] at hidx
      simp at hidx
      subst hidx
      rw [put_cons_found rest v hs]
      simp [Node.liveB, hsplit, set_append_length]

theorem mkChain_liveB [Inhabited V] (v : V) (b : Byte) (rest : Key) :
    (mkChain v b rest).liveB = true := by
  cases rest <;> simp [mkChain, Node.liveB]

theorem mkChain_noDeadB [Inhabited V] (v : V) (b : Byte) (rest : Key) :
    (mkChain v b rest).noDeadB = true := by
  induction rest generalizing b with
  | nil =>
    rw [mkChain, Node.noDeadB_iff]
    simp
  | cons b' rest' ih =>
    rw [mkChain, Node.noDeadB_iff]
    intro c hc
    simp only [Node.children_mk, List.mem_singleton] at hc
    subst hc
    exact ⟨mkChain_liveB v b' rest', ih b'⟩

theorem put_noDeadB [Inhabited V] (n : Node V) (k : Key) (v : V) (h : n.noDeadB = true) :
    (n.put k v).1.noDeadB = true := by
  induction k generalizing n with
  | nil =>
    rw [Node.noDeadB_iff] at h
    rw [Node.put]
    split <;> (rw [Node.noDeadB_iff]; simpa using h)
  | cons b rest ih =>
    rw [Node.noDeadB_iff] at h
    rcases hs : n.search b with ⟨i, found⟩
    cases found
    · have hs' : searchList b n.children = (i, false) := hs
      obtain ⟨l₁, l₂, hsplit, hidx, _, _⟩ := searchList_not_found (by rw [hs'])
      rw [hs'] at hidx
      simp at hidx
      subst hidx
      rw [put_cons_not_found rest v hs, Node.noDeadB_iff]
      simp only [Node.children_mk]
      rw [hsplit, insertAt_append_length]
      intro c hc
      rcases List.mem_append.mp hc with hc | hc
      · exact h c (hsplit ▸ List.mem_append_left _ hc)
      · rcases List.mem_cons.mp hc with rfl | hc
        · exact ⟨mkChain_liveB v b rest, mkChain_noDeadB v b rest⟩
        · exact h c (hsplit ▸ List.mem_append_right _ hc)
    · have hs' : searchList b n.children = (i, true) := hs
      obtain ⟨l₁, c, l₂, hsplit, hidx, _, _⟩ := searchList_found (by rw [hs'])
      rw [hs'] at hidx
      simp at hidx
      subst hidx
      rw [put_cons_found rest v hs, Node.noDeadB_iff]
      simp only [Node.children_mk]
      have hgetD : n.children.getD l₁.length (dfltNode V) = c := by
        rw [hsplit, getD_append_length]
      rw [hgetD, hsplit, set_append_length]
      intro c' hc'
      rcases List.mem_append.mp hc' with hc' | hc'
      · exact h c' (hsplit ▸ List.mem_append_left _ hc')
      · rcases List.mem_cons.mp hc' with rfl | hc'
        · refine ⟨put_liveB c rest v, ?_⟩
          exact ih c (h c (hsplit ▸ List.mem_append_right _ (List.mem_cons_self c l₂))).2
        · exact h c' (hsplit ▸ List.mem_append_right _ (List.mem_cons_of_mem _ hc'))

theorem delAux_noDeadB [Inhabited V] {n n' : Node V} {k : Key} {prev : V}
    (h : n.noDeadB = true) (hd : delAux n k = some (n', prev)) : n'.noDeadB = true := by
  induction k generalizing n n' prev with
  | nil =>
    rw [delAux] at hd
    split at hd
    · cases hd
      rw [Node.noDeadB_iff] at h ⊢
      simpa using h
    · cases hd
  | cons b rest ih =>
    rw [Node.noDeadB_iff] at h
    rcases hs : n.search b with ⟨i, found⟩
    cases found
    · rw [delAux_cons_not_found rest hs] at hd
      cases hd
    · have hs' : searchList b n.children = (i, true) := hs
      obtain ⟨l₁, c, l₂, hsplit, hidx, _, _⟩ := searchList_found (by rw [hs'])
      rw [hs'] at hidx
      simp at hidx
      subst hidx
      rw [delAux_cons_found rest hs] at hd
      have hgetD : n.children.getD l₁.length (dfltNode V) = c := by
        rw [hsplit, getD_append_length]
      rw [hgetD] at hd
      rcases hdc : delAux c rest with _ | ⟨c', prev'⟩ <;> rw [hdc] at hd
      · cases hd
      · have hcn : c'.noDeadB = true :=
          ih (h c (hsplit ▸ List.mem_append_right _ (List.mem_cons_self c l₂))).2 hdc
        dsimp only at hd
        by_cases hc : (!c'.isTerminal && c'.children.isEmpty) = true
        · rw [if_pos hc] at hd
          cases hd
          rw [Node.noDeadB_iff]
          simp only [Node.children_mk]
          rw [hsplit, eraseIdx_append_length]
          intro x hx
          rcases List.mem_append.mp hx with hx | hx
          · exact h x (hsplit ▸ List.mem_append_left _ hx)
          · exact h x (hsplit ▸ List.mem_append_right _ (List.mem_cons_of_mem _ hx))
        · rw [if_neg hc] at hd
          cases hd
          rw [Node.noDeadB_iff]
          simp only [Node.children_mk]
          rw [hsplit, set_append_length]
          intro x hx
          rcases List.mem_append.mp hx with hx | hx
          · exact h x (hsplit ▸ List.mem_append_left _ hx)
          · rcases List.mem_cons.mp hx with rfl | hx
            · refine ⟨?_, hcn⟩
              rw [Node.liveB]
              rcases ht : x.isTerminal
              · simp [ht] at hc ⊢
                simp [hc]
              · simp
            · exact h x (hsplit ▸ List.mem_append_right _ (List.mem_cons_of_mem _ hx))

/-- C8: after any completed `Put` or `Delete` on a trie with no dead
descendants, every reachable leaf other than the root is terminal (no dead —
non-terminal, childless — node remains below the root). -/
theorem leaves_terminal_invariant [Inhabited V] (n : Node V) (k : Key) (v : V)
    (h : n.noDeadB = true) :
    (n.put k v).1.noDeadB = true ∧ (n.delete k).1.noDeadB = true := by
  refine ⟨put_noDeadB n k v h, ?_⟩
  rw [Node.delete]
  rcases hd : delAux n k with _ | ⟨n', prev⟩
  · exact h
  · exact delAux_noDeadB h hd

/-- Concrete instance for the C8 theorem: a chain trie stays free of dead
nodes after `Put` and after the pruning `Delete` of `[0x10, 0x20]`. -/
theorem leaves_terminal_invariant_witness :
    (Node.mk 0 [Node.mk 0 [Node.mk 2 [] 0x20 true] 0x10 false] 0 true : Node Nat).noDeadB
        = true ∧
    (((Node.mk 0 [Node.mk 0 [Node.mk 2 [] 0x20 true] 0x10 false] 0 true :
        Node Nat).put [0x10, 0x20] 5).1.noDeadB = true ∧
     ((Node.mk 0 [Node.mk 0 [Node.mk 2 [] 0x20 true] 0x10 false] 0 true :
        Node Nat).delete [0x10, 0x20]).1.noDeadB = true) := by
  have hnd : (Node.mk 0 [Node.mk 0 [Node.mk 2 [] 0x20 true] 0x10 false] 0 true :
      Node Nat).noDeadB = true := by
    rw [Node.noDeadB_iff]
    intro c hc
    simp only [Node.children_mk, List.mem_singleton] at hc
    subst hc
    refine ⟨by simp [Node.liveB], ?_⟩
    rw [Node.noDeadB_iff]
    intro c hc
    simp only [Node.children_mk, List.mem_singleton] at hc
    subst hc
    refine ⟨by simp [Node.liveB], ?_⟩
    rw [Node.noDeadB_iff]
    simp
  exact ⟨hnd, leaves_terminal_invariant _ [0x10, 0x20] 5 hnd⟩

theorem delAux_get [Inhabited V] {n n' : Node V} {k : Key} {prev : V} (hwf : n.wfB = true)
    (hd : delAux n k = some (n', prev)) : n'.get k = (default, false) := by
  induction k generalizing n n' prev with
  | nil =>
    rw [delAux] at hd
    split at hd
    · cases hd
      rw [Node.get]
      simp
    · cases hd
  | cons b rest ih =>
    rw [Node.wfB_iff] at hwf
    obtain ⟨hsorted, hall⟩ := hwf
    rcases hs : n.search b with ⟨i, found⟩
    cases found
    · rw [delAux_cons_not_found rest hs] at hd
      cases hd
    · have hs' : searchList b n.children = (i, true) := hs
      obtain ⟨l₁, c, l₂, hsplit, hidx, hbyte, hlt₁⟩ := searchList_found (by rw [hs'])
      rw [hs'] at hidx
      simp at hidx
      subst hidx
      rw [delAux_cons_found rest hs] at hd
      have hgetD : n.children.getD l₁.length (dfltNode V) = c := by
        rw [hsplit, getD_append_length]
      rw [hgetD] at hd
      rcases hdc : delAux c rest with _ | ⟨c', prev'⟩ <;> rw [hdc] at hd
      · cases hd
      · have hgt₂ : ∀ y ∈ l₂, b < y.keyByte := by
          have := hsplit ▸ hsorted
          rw [sortedP, List.pairwise_append] at this
          intro y hy
          exact hbyte ▸ (List.pairwise_cons.mp this.2.1).1 y hy
        dsimp only at hd
        by_cases hc : (!c'.isTerminal && c'.children.isEmpty) = true
        · rw [if_pos hc] at hd
          cases hd
          have hmiss : (searchList b (l₁ ++ l₂)).2 = false := by
            refine searchList_append_not_found hlt₁ ?_
            intro c₂ cs' hcc
            exact hgt₂ c₂ (by simp [hcc])
          have hsrch : (Node.mk n.value (n.children.eraseIdx l₁.length) n.keyByte
              n.isTerminal).search b =
              ((searchList b (l₁ ++ l₂)).1, false) := by
            rw [Node.search, Node.children_mk, hsplit, eraseIdx_append_length]
            rcases hr : searchList b (l₁ ++ l₂) with ⟨j, fnd⟩
            rw [hr] at hmiss
            simp at hmiss
            simp [hmiss]
          rw [get_cons_not_found rest hsrch]
        · rw [if_neg hc] at hd
          cases hd
          have hb' : c'.keyByte = b := by rw [delAux_keyByte hdc, hbyte]
          have hsrch : (Node.mk n.value (n.children.set l₁.length c') n.keyByte
              n.isTerminal).search b = (l₁.length, true) := by
            rw [Node.search, Node.children_mk, hsplit, set_append_length]
            exact searchList_append_found l₂ hlt₁ hb'
          rw [get_cons_found rest hsrch]
          simp only [Node.children_mk]
          rw [hsplit, set_append_length, getD_append_length]
          exact ih (hall c (hsplit ▸ List.mem_append_right _ (List.mem_cons_self c l₂))) hdc

/-- C3: deleting a stored key from a well-formed trie with no dead nodes
reports that the key existed, a subsequent `Get` yields the zero value and
`false`, and after the delete no dead (non-terminal, childless) node other
than the root remains reachable. -/
theorem delete_complete [Inhabited V] (n : Node V) (k : Key) (hwf : n.wfB = true)
    (hnd : n.noDeadB = true) (hstored : (n.get k).2 = true) :
    (n.delete k).2.2 = true ∧ (n.delete k).1.get k = (default, false) ∧
    (n.delete k).1.noDeadB = true := by
  rw [Node.delete]
  rcases hd : delAux n k with _ | ⟨n', prev⟩
  · have := (delAux_none_iff_get n k).mp hd
    rw [hstored] at this
    cases this
  · exact ⟨rfl, delAux_get hwf hd, delAux_noDeadB hnd hd⟩

/-- Concrete instance for the C3 theorem: deleting the sole key
`[0x10, 0x20]` under a chain collapses it and `Get` then misses. -/
theorem delete_complete_witness :
    ((Node.mk 0 [Node.mk 0 [Node.mk 2 [] 0x20 true] 0x10 false] 0 true :
        Node Nat).wfB = true ∧
     (Node.mk 0 [Node.mk 0 [Node.mk 2 [] 0x20 true] 0x10 false] 0 true :
        Node Nat).noDeadB = true ∧
     ((Node.mk 0 [Node.mk 0 [Node.mk 2 [] 0x20 true] 0x10 false] 0 true :
        Node Nat).get [0x10, 0x20]).2 = true) ∧
    (((Node.mk 0 [Node.mk 0 [Node.mk 2 [] 0x20 true] 0x10 false] 0 true :
        Node Nat).delete [0x10, 0x20]).2.2 = true ∧
     ((Node.mk 0 [Node.mk 0 [Node.mk 2 [] 0x20 true] 0x10 false] 0 true :
        Node Nat).delete [0x10, 0x20]).1.get [0x10, 0x20] = (default, false) ∧
     ((Node.mk 0 [Node.mk 0 [Node.mk 2 [] 0x20 true] 0x10 false] 0 true :
        Node Nat).delete [0x10, 0x20]).1.noDeadB = true) := by
  have hwf : (Node.mk 0 [Node.mk 0 [Node.mk 2 [] 0x20 true] 0x10 false] 0 true :
      Node Nat).wfB = true := by
    rw [Node.wfB_iff]
    refine ⟨by simp [sortedP], ?_⟩
    intro c hc
    simp only [Node.children_mk, List.mem_singleton] at hc
    subst hc
    rw [Node.wfB_iff]
    refine ⟨by simp [sortedP], ?_⟩
    intro c hc
    simp only [Node.children_mk, List.mem_singleton] at hc
    subst hc
    rw [Node.wfB_iff]
    simp [sortedP]
  have hnd : (Node.mk 0 [Node.mk 0 [Node.mk 2 [] 0x20 true] 0x10 false] 0 true :
      Node Nat).noDeadB = true := by
    rw [Node.noDeadB_iff]
    intro c hc
    simp only [Node.children_mk, List.mem_singleton] at hc
    subst hc
    refine ⟨by simp [Node.liveB], ?_⟩
    rw [Node.noDeadB_iff]
    intro c hc
    simp only [Node.children_mk, List.mem_singleton] at hc
    subst hc
    refine ⟨by simp [Node.liveB], ?_⟩
    rw [Node.noDeadB_iff]
    simp
  exact ⟨⟨hwf, hnd, rfl⟩, delete_complete _ [0x10, 0x20] hwf hnd rfl⟩

/-- The spec's well-formedness invariant on a bounds value: the low edge key
must not exceed the high edge key in ascending order. -/
def boundsOrderedB (bds : Bounds) : Bool :=
  match bds.low, bds.high with
  | some (l, _), some (h, _) => decide (keyCmp l h ≠ .gt)
  | _, _ => true

theorem rangeLoop_cut_of_gt [Inhabited V] {bds : Bounds} {k : Key} {nd : Node V}
    (hgt : bds.compareKey k = .gt) (l₁ l₂ : List (Key × Node V)) :
    rangeLoop bds (l₁ ++ (k, nd) :: l₂) = rangeLoop bds (l₁ ++ [(k, nd)]) := by
  induction l₁ with
  | nil =>
    rw [List.nil_append, List.nil_append, rangeLoop, rangeLoop, hgt]
  | cons p l₁ ih =>
    rcases p with ⟨k', nd'⟩
    rw [List.cons_append, List.cons_append, rangeLoop, rangeLoop]
    rcases hc : bds.compareKey k' with _ | _ | _
    · dsimp only
      rw [ih]
    · dsimp only
      rw [ih]
    · rfl

theorem belowLowB_of_lt {k l : Key} (li : Bool) (h : keyCmp k l = .lt) :
    belowLowB (some (l, li)) k = true := by
  cases li <;> simp [belowLowB, h]

theorem aboveHighB_of_gt {k h : Key} (hi : Bool) (hgt : keyCmp k h = .gt) :
    aboveHighB (some (h, hi)) k = true := by
  cases hi <;> simp [aboveHighB, hgt]

theorem aboveHighB_of_lt {k h : Key} (hi : Bool) (hlt : keyCmp k h = .lt) :
    aboveHighB (some (h, hi)) k = false := by
  cases hi <;> simp [aboveHighB, hlt]

theorem keyCmp_gt_iff {a b : Key} : keyCmp a b = .gt ↔ keyCmp b a = .lt := by
  rw [keyCmp_swap a b]
  cases h : keyCmp a b <;> simp [Ordering.swap]

theorem le_of_belowLowB {k l : Key} {li : Bool} (hb : belowLowB (some (l, li)) k = true) :
    keyCmp k l ≠ .gt := by
  intro hgt
  cases li <;> rw [belowLowB, hgt] at hb <;> simp at hb

/-- C5: with well-ordered bounds, once the range loop meets a visited key
strictly above the high edge in a forward walk — or strictly below the low
edge in a reverse walk — the produced sequence is independent of everything
visited later: the walk stops at that key and no later entry is examined. -/
theorem range_early_termination [Inhabited V] (bds : Bounds) (l₁ l₂ : List (Key × Node V))
    (k : Key) (nd : Node V) (hord : boundsOrderedB bds = true) :
    (bds.isReverse = false → ∀ hk hincl, bds.high = some (hk, hincl) →
      keyCmp k hk = .gt →
      rangeLoop bds (l₁ ++ (k, nd) :: l₂) = rangeLoop bds (l₁ ++ [(k, nd)])) ∧
    (bds.isReverse = true → ∀ lk lincl, bds.low = some (lk, lincl) →
      keyCmp k lk = .lt →
      rangeLoop bds (l₁ ++ (k, nd) :: l₂) = rangeLoop bds (l₁ ++ [(k, nd)])) := by
  constructor
  · intro hrev hk hincl hhigh hgt
    have hbelow : belowLowB bds.low k = false := by
      rcases hlow : bds.low with _ | ⟨l, li⟩
      · rfl
      · by_contra hb
        rw [Bool.not_eq_false] at hb
        have hkl : keyCmp k l ≠ .gt := le_of_belowLowB hb
        have hlh : keyCmp l hk ≠ .gt := by
          rw [boundsOrderedB, hlow, hhigh] at hord
          simpa using hord
        have hk_lt : keyCmp hk k = .lt := keyCmp_gt_iff.mp hgt
        exact hlh (keyCmp_gt_iff.mpr (keyCmp_trans_lt_le hk_lt hkl))
    have habove : aboveHighB bds.high k = true := by
      rw [hhigh]
      exact aboveHighB_of_gt hincl hgt
    have hcmp : bds.compareKey k = .gt := by
      rw [Bounds.compareKey]
      simp [hrev, hbelow, habove]
    exact rangeLoop_cut_of_gt hcmp l₁ l₂
  · intro hrev lk lincl hlow hlt
    have habove : aboveHighB bds.high k = false := by
      rcases hhigh : bds.high with _ | ⟨hk2, hi2⟩
      · rfl
      · have hlh : keyCmp lk hk2 ≠ .gt := by
          rw [boundsOrderedB, hlow, hhigh] at hord
          simpa using hord
        exact aboveHighB_of_lt hi2 (keyCmp_trans_lt_le hlt hlh)
    have hbelow : belowLowB bds.low k = true := by
      rw [hlow]
      exact belowLowB_of_lt lincl hlt
    have hcmp : bds.compareKey k = .gt := by
      rw [Bounds.compareKey]
      simp [hrev, habove, hbelow]
    exact rangeLoop_cut_of_gt hcmp l₁ l₂

/-- Concrete instance for the C5 theorem: in a forward walk over
`From([0x10]).To([0x12])`, meeting the key `[0x13]` cuts off the rest of the
visited sequence. -/
theorem range_early_termination_witness :
    boundsOrderedB ((From [0x10]).To [0x12]) = true ∧
    keyCmp [0x13] [0x12] = .gt ∧
    rangeLoop ((From [0x10]).To [0x12])
        ([([0x10], Node.mk 1 [] 0x10 true)] ++ ([0x13], Node.mk 2 [] 0x13 true) ::
          [([0x14], (Node.mk 3 [] 0x14 true : Node Nat))]) =
      rangeLoop ((From [0x10]).To [0x12])
        ([([0x10], Node.mk 1 [] 0x10 true)] ++ [([0x13], Node.mk 2 [] 0x13 true)]) :=
  ⟨by decide, by decide,
    (range_early_termination ((From [0x10]).To [0x12])
      [([0x10], Node.mk 1 [] 0x10 true)] [([0x14], Node.mk 3 [] 0x14 true)]
      [0x13] (Node.mk 2 [] 0x13 true) (by decide)).1 rfl [0x12] false rfl (by decide)⟩

/-- The claim-side statement of the edge inclusion rules: a key satisfies the
bounds iff it is at least (strictly above, when exclusive) the low edge and
at most (strictly below, when exclusive) the high edge; an unbounded edge is
always satisfied. -/
def inBoundsB (bds : Bounds) (k : Key) : Bool :=
  (match bds.low with
   | none => true
   | some (l, true) =>
     match keyCmp l k with
     | .gt => false
     | _ => true
   | some (l, false) =>
     match keyCmp l k with
     | .lt => true
     | _ => false)
  &&
  (match bds.high with
   | none => true
   | some (h, true) =>
     match keyCmp k h with
     | .gt => false
     | _ => true
   | some (h, false) =>
     match keyCmp k h with
     | .lt => true
     | _ => false)

theorem inBoundsB_eq (bds : Bounds) (k : Key) :
    inBoundsB bds k = (!belowLowB bds.low k && !aboveHighB bds.high k) := by
  rw [inBoundsB]
  congr 1
  · rcases bds.low with _ | ⟨l, li⟩
    · rfl
    · have hswap : keyCmp k l = (keyCmp l k).swap := keyCmp_swap l k
      rcases hc : keyCmp l k with _ | _ | _ <;>
        rw [hc] at hswap <;>
        cases li <;>
        simp [belowLowB, hswap, hc, Ordering.swap]
  · rcases bds.high with _ | ⟨h, hi⟩
    · rfl
    · rcases hc : keyCmp k h with _ | _ | _ <;> cases hi <;> simp [aboveHighB, hc]

theorem compareKey_eq_iff (bds : Bounds) (k : Key) :
    bds.compareKey k = .eq ↔
      (belowLowB bds.low k = false ∧ aboveHighB bds.high k = false) := by
  rw [Bounds.compareKey]
  cases hrev : bds.isReverse <;>
    (rcases hb : belowLowB bds.low k <;> rcases ha : aboveHighB bds.high k <;> simp)

theorem compareKey_gt_forward {bds : Bounds} {k : Key} (hrev : bds.isReverse = false)
    (h : bds.compareKey k = .gt) : aboveHighB bds.high k = true := by
  rw [Bounds.compareKey, hrev] at h
  rcases hb : belowLowB bds.low k <;> rcases ha : aboveHighB bds.high k <;>
    rw [hb, ha] at h <;> simp_all

theorem compareKey_gt_reverse {bds : Bounds} {k : Key} (hrev : bds.isReverse = true)
    (h : bds.compareKey k = .gt) : belowLowB bds.low k = true := by
  rw [Bounds.compareKey, hrev] at h
  rcases hb : belowLowB bds.low k <;> rcases ha : aboveHighB bds.high k <;>
    rw [hb, ha] at h <;> simp_all

theorem belowLowB_incl_iff {k l : Key} :
    belowLowB (some (l, true)) k = true ↔ keyCmp k l = .lt := by
  rw [belowLowB]
  rcases hc : keyCmp k l with _ | _ | _ <;> simp

theorem belowLowB_excl_iff {k l : Key} :
    belowLowB (some (l, false)) k = true ↔ keyCmp k l ≠ .gt := by
  rw [belowLowB]
  rcases hc : keyCmp k l with _ | _ | _ <;> simp

theorem aboveHighB_incl_iff {k h : Key} :
    aboveHighB (some (h, true)) k = true ↔ keyCmp k h = .gt := by
  rw [aboveHighB]
  rcases hc : keyCmp k h with _ | _ | _ <;> simp

theorem aboveHighB_excl_iff {k h : Key} :
    aboveHighB (some (h, false)) k = true ↔ keyCmp k h ≠ .lt := by
  rw [aboveHighB]
  rcases hc : keyCmp k h with _ | _ | _ <;> simp

theorem aboveHighB_mono {hi : Option (Key × Bool)} {q k : Key}
    (hq : aboveHighB hi q = true) (hlt : keyCmp q k = .lt) :
    aboveHighB hi k = true := by
  rcases hi with _ | ⟨h, hflag⟩
  · rw [aboveHighB] at hq
    cases hq
  · cases hflag
    · rw [aboveHighB_excl_iff] at hq ⊢
      intro hk
      exact hq (keyCmp_trans_lt_lt hlt hk)
    · rw [aboveHighB_incl_iff] at hq ⊢
      rw [keyCmp_gt_iff] at hq ⊢
      exact keyCmp_trans_lt_lt hq hlt

theorem belowLowB_mono {lo : Option (Key × Bool)} {q k : Key}
    (hq : belowLowB lo q = true) (hlt : keyCmp k q = .lt) :
    belowLowB lo k = true := by
  rcases lo with _ | ⟨l, lflag⟩
  · rw [belowLowB] at hq
    cases hq
  · cases lflag
    · rw [belowLowB_excl_iff] at hq ⊢
      intro hk
      rw [keyCmp_gt_iff] at hk
      exact hq (keyCmp_gt_iff.mpr (keyCmp_trans_lt_lt hk hlt))
    · rw [belowLowB_incl_iff] at hq ⊢
      exact keyCmp_trans_lt_lt hlt hq

theorem ne_lt_of_not_belowLowB {k l : Key} {li : Bool}
    (h : belowLowB (some (l, li)) k = false) : keyCmp k l ≠ .lt := by
  intro hlt
  cases li <;> rw [belowLowB, hlt] at h <;> cases h

theorem ne_gt_of_not_aboveHighB {k h : Key} {hi : Bool}
    (hh : aboveHighB (some (h, hi)) k = false) : keyCmp k h ≠ .gt := by
  intro hgt
  cases hi <;> rw [aboveHighB, hgt] at hh <;> cases hh

/-- Completeness of the low half of the bounds-narrowing step: a next byte on
the path to any key not below the low edge is at least the produced minimum
(in particular the subtree is admissible). -/
theorem lowBound_complete {l : Key} (p : Key) (b : Byte) (s : Key)
    (h : keyCmp (p ++ b :: s) l ≠ .lt) :
    ∃ m, lowBound p l = some m ∧ m ≤ b := by
  induction p generalizing l with
  | nil =>
    cases l with
    | nil => exact ⟨0, rfl, Fin.zero_le b⟩
    | cons c ls =>
      refine ⟨c, rfl, ?_⟩
      by_contra hlt
      rw [not_le] at hlt
      refine h ?_
      rw [List.nil_append, keyCmp]
      simp [hlt]
  | cons a p' ih =>
    cases l with
    | nil => exact ⟨0, rfl, Fin.zero_le b⟩
    | cons c ls =>
      rcases lt_trichotomy a c with hac | hac | hac
      · exfalso
        refine h ?_
        rw [List.cons_append, keyCmp]
        simp [hac]
      · subst hac
        rw [lowBound]
        simp only [lt_irrefl, if_false]
        apply ih
        intro hlt
        refine h ?_
        rw [List.cons_append, keyCmp]
        simp [lt_irrefl, hlt]
      · refine ⟨0, ?_, Fin.zero_le b⟩
        rw [lowBound]
        simp [not_lt_of_gt hac, hac]

/-- Completeness of the high half of the bounds-narrowing step: a next byte
on the path to any key not above the high edge is at most the produced
maximum. -/
theorem highBound_complete {hk : Key} (p : Key) (b : Byte) (s : Key)
    (h : keyCmp (p ++ b :: s) hk ≠ .gt) :
    ∃ m, highBound p hk = some m ∧ b ≤ m := by
  induction p generalizing hk with
  | nil =>
    cases hk with
    | nil =>
      exfalso
      exact h rfl
    | cons c hs =>
      refine ⟨c, rfl, ?_⟩
      by_contra hlt
      rw [not_le] at hlt
      refine h ?_
      rw [List.nil_append, keyCmp]
      simp [hlt, not_lt_of_gt hlt]
  | cons a p' ih =>
    cases hk with
    | nil =>
      exfalso
      exact h rfl
    | cons c hs =>
      rcases lt_trichotomy a c with hac | hac | hac
      · refine ⟨255, ?_, ?_⟩
        · rw [highBound]
          simp [hac]
        · have := b.isLt
          rw [Fin.le_def]
          omega
      · subst hac
        rw [highBound]
        simp only [lt_irrefl, if_false]
        apply ih
        intro hgt
        refine h ?_
        rw [List.cons_append, keyCmp]
        simp [lt_irrefl, hgt]
      · exfalso
        refine h ?_
        rw [List.cons_append, keyCmp]
        simp [hac, not_lt_of_gt hac]

/-- Completeness of `childBounds`: at any proper ancestor of an in-bounds
key, the next byte toward that key lies inside the produced byte interval
(returned in traversal order). -/
theorem childBounds_complete (bds : Bounds) (p : Key) (b : Byte) (s : Key)
    (hlow : belowLowB bds.low (p ++ b :: s) = false)
    (hhigh : aboveHighB bds.high (p ++ b :: s) = false) :
    ∃ lo hi, lo ≤ b ∧ b ≤ hi ∧
      bds.childBounds p = some (if bds.isReverse then (hi, lo) else (lo, hi)) := by
  have hlo : ∃ lo, (match bds.low with
      | none => some 0
      | some (l, _) => lowBound p l) = some lo ∧ lo ≤ b := by
    rcases hl : bds.low with _ | ⟨l, li⟩
    · exact ⟨0, rfl, Fin.zero_le b⟩
    · rw [hl] at hlow
      obtain ⟨m, hm, hmb⟩ := lowBound_complete p b s (ne_lt_of_not_belowLowB hlow)
      exact ⟨m, hm, hmb⟩
  have hhi : ∃ hi, (match bds.high with
      | none => some 255
      | some (h, _) => highBound p h) = some hi ∧ b ≤ hi := by
    rcases hh : bds.high with _ | ⟨h, hflag⟩
    · refine ⟨255, rfl, ?_⟩
      have := b.isLt
      rw [Fin.le_def]
      omega
    · rw [hh] at hhigh
      obtain ⟨m, hm, hmb⟩ := highBound_complete p b s (ne_gt_of_not_aboveHighB hhigh)
      exact ⟨m, hm, hmb⟩
  obtain ⟨lo, hloEq, hlob⟩ := hlo
  obtain ⟨hi, hhiEq, hbhi⟩ := hhi
  refine ⟨lo, hi, hlob, hbhi, ?_⟩
  rw [Bounds.childBounds]
  simp only [hloEq, hhiEq]
  rw [if_pos (le_trans hlob hbhi)]
  split <;> rfl

theorem forwardAdmissible_sublist (st sp : Byte) (cs : List (Node V)) :
    List.Sublist (forwardAdmissible st sp cs) cs := by
  induction cs with
  | nil => simp [forwardAdmissible]
  | cons a as ih =>
    rw [forwardAdmissible]
    split
    · exact ih.cons a
    · split
      · exact List.nil_sublist _
      · exact ih.cons₂ a

theorem revAdmissible_sublist (st sp : Byte) (cs : List (Node V)) :
    List.Sublist (revAdmissible st sp cs) cs := by
  induction cs with
  | nil => simp [revAdmissible]
  | cons a as ih =>
    rw [revAdmissible]
    split
    · exact ih.cons a
    · split
      · exact List.nil_sublist _
      · exact ih.cons₂ a

theorem mem_forwardAdmissible_of {st sp : Byte} {cs : List (Node V)} {c : Node V}
    (hs : sortedP cs) (hc : c ∈ cs) (h1 : st ≤ c.keyByte) (h2 : c.keyByte ≤ sp) :
    c ∈ forwardAdmissible st sp cs := by
  rw [sortedP] at hs
  induction cs with
  | nil => cases hc
  | cons a as ih =>
    rw [forwardAdmissible]
    rcases List.mem_cons.mp hc with rfl | hc
    · rw [if_neg (not_lt.mpr h1), if_neg (not_lt.mpr h2)]
      exact List.mem_cons_self _ _
    · by_cases h3 : a.keyByte < st
      · rw [if_pos h3]
        exact ih (List.pairwise_cons.mp hs).2 hc
      · rw [if_neg h3]
        by_cases h4 : sp < a.keyByte
        · exact absurd h2 (not_le.mpr (lt_trans h4 ((List.pairwise_cons.mp hs).1 c hc)))
        · rw [if_neg h4]
          exact List.mem_cons_of_mem _ (ih (List.pairwise_cons.mp hs).2 hc)

theorem mem_revAdmissible_of {st sp : Byte} {cs : List (Node V)} {c : Node V}
    (hs : cs.Pairwise (fun a c => c.keyByte < a.keyByte)) (hc : c ∈ cs)
    (h1 : c.keyByte ≤ st) (h2 : sp ≤ c.keyByte) :
    c ∈ revAdmissible st sp cs := by
  induction cs with
  | nil => cases hc
  | cons a as ih =>
    rw [revAdmissible]
    rcases List.mem_cons.mp hc with rfl | hc
    · rw [if_neg (not_lt.mpr h1), if_neg (not_lt.mpr h2)]
      exact List.mem_cons_self _ _
    · by_cases h3 : st < a.keyByte
      · rw [if_pos h3]
        exact ih (List.pairwise_cons.mp hs).2 hc
      · rw [if_neg h3]
        by_cases h4 : a.keyByte < sp
        · exact absurd h2 (not_le.mpr (lt_trans ((List.pairwise_cons.mp hs).1 c hc) h4))
        · rw [if_neg h4]
          exact List.mem_cons_of_mem _ (ih (List.pairwise_cons.mp hs).2 hc)

theorem searchList_mem_sorted [Inhabited V] {cs : List (Node V)} {c : Node V}
    (hs : sortedP cs) (hc : c ∈ cs) :
    ∃ i, searchList c.keyByte cs = (i, true) ∧ cs.getD i (dfltNode V) = c := by
  rw [sortedP] at hs
  induction cs with
  | nil => cases hc
  | cons a as ih =>
    rcases List.mem_cons.mp hc with rfl | hc
    · refine ⟨0, ?_, rfl⟩
      rw [searchList]
      simp
    · have halt : a.keyByte < c.keyByte := (List.pairwise_cons.mp hs).1 c hc
      obtain ⟨i, hsi, hgi⟩ := ih (List.pairwise_cons.mp hs).2 hc
      refine ⟨i + 1, ?_, by simpa using hgi⟩
      rw [searchList, hsi]
      simp [halt.ne', not_lt_of_gt halt]

theorem get_eq_nodeAt [Inhabited V] (n : Node V) (k : Key) :
    n.get k =
      (match n.nodeAt k with
       | some nd => if nd.isTerminal then (nd.value, true) else (default, false)
       | none => (default, false)) := by
  induction k generalizing n with
  | nil => rw [Node.get, Node.nodeAt]
  | cons b rest ih =>
    rcases hs : n.search b with ⟨i, found⟩
    cases found
    · rw [get_cons_not_found rest hs, nodeAt_cons_not_found rest hs]
    · rw [get_cons_found rest hs, nodeAt_cons_found rest hs]
      exact ih _

/-- Soundness of the pre-order walk: every visited pair extends the starting
path and names the node actually reached by that path. -/
theorem preVisit_sound [Inhabited V] (bds : Bounds) :
    ∀ n : Node V, n.wfB = true → ∀ p k nd, (k, nd) ∈ preVisit bds p n →
      ∃ s, k = p ++ s ∧ n.nodeAt s = some nd := by
  intro n
  induction n using Node.ind with
  | h v cs kb t ihn =>
    intro hwf p k nd hmem
    rw [preVisit_def] at hmem
    rcases List.mem_cons.mp hmem with heq | hmem
    · rw [Prod.mk.injEq] at heq
      obtain ⟨rfl, rfl⟩ := heq
      exact ⟨[], by simp, rfl⟩
    · rw [List.mem_flatMap] at hmem
      obtain ⟨c, hcadm, hmem⟩ := hmem
      have hcmem : c ∈ cs := by
        simpa using mem_of_mem_forwardChildren hcadm
      obtain ⟨hsorted, hall⟩ := (Node.wfB_iff _).mp hwf
      simp only [Node.children_mk] at hsorted hall
      obtain ⟨s', hk, hat⟩ := ihn c hcmem (hall c hcmem) (p ++ [c.keyByte]) k nd hmem
      obtain ⟨i, hsi, hgi⟩ := searchList_mem_sorted hsorted hcmem
      refine ⟨c.keyByte :: s', by simp [hk], ?_⟩
      have hsrch : (Node.mk v cs kb t).search c.keyByte = (i, true) := hsi
      rw [nodeAt_cons_found s' hsrch]
      simp only [Node.children_mk]
      rw [hgi]
      exact hat

/-- Completeness of the pre-order walk for a forward bounds: the node at the
end of any stored path whose full key is within the edges is visited. -/
theorem preVisit_complete [Inhabited V] {bds : Bounds} (hrev : bds.isReverse = false) :
    ∀ (s : Key) (n : Node V), n.wfB = true → ∀ (p : Key) (nd : Node V),
      n.nodeAt s = some nd →
      belowLowB bds.low (p ++ s) = false → aboveHighB bds.high (p ++ s) = false →
      (p ++ s, nd) ∈ preVisit bds p n := by
  intro s
  induction s with
  | nil =>
    intro n hwf p nd hat _ _
    rw [Node.nodeAt] at hat
    cases hat
    rw [preVisit_def]
    exact List.mem_cons.mpr (Or.inl (by simp))
  | cons b s' ih =>
    intro n hwf p nd hat hlow hhigh
    rcases hs : n.search b with ⟨i, found⟩
    cases found
    · rw [nodeAt_cons_not_found s' hs] at hat
      cases hat
    · rw [nodeAt_cons_found s' hs] at hat
      have hs' : searchList b n.children = (i, true) := hs
      obtain ⟨l₁, c, l₂, hsplit, hidx, hbyte, hlt₁⟩ := searchList_found (by rw [hs'])
      rw [hs'] at hidx
      simp at hidx
      subst hidx
      have hgetD : n.children.getD l₁.length (dfltNode V) = c := by
        rw [hsplit, getD_append_length]
      rw [hgetD] at hat
      obtain ⟨hsorted, hall⟩ := (Node.wfB_iff _).mp hwf
      have hcmem : c ∈ n.children :=
        hsplit ▸ List.mem_append_right _ (List.mem_cons_self c l₂)
      obtain ⟨lo, hi, hlob, hbhi, hcb⟩ := childBounds_complete bds p b s' hlow hhigh
      rw [hrev] at hcb
      simp only [Bool.false_eq_true, if_false] at hcb
      have hcadm : c ∈ forwardChildren bds p n.children := by
        rw [forwardChildren, hcb]
        exact mem_forwardAdmissible_of hsorted hcmem (hbyte ▸ hlob) (hbyte ▸ hbhi)
      rw [preVisit_def]
      refine List.mem_cons.mpr (Or.inr ?_)
      rw [List.mem_flatMap]
      refine ⟨c, hcadm, ?_⟩
      have hassoc : p ++ b :: s' = (p ++ [b]) ++ s' := by simp
      rw [hassoc] at hlow hhigh ⊢
      rw [hbyte]
      exact ih c (hall c hcmem) (p ++ [b]) nd hat hlow hhigh

theorem pairwise_flatMap_of {α β : Type} {R : α → α → Prop} {f : β → List α} {l : List β}
    (h1 : ∀ b ∈ l, (f b).Pairwise R)
    (h2 : l.Pairwise (fun b b' => ∀ x ∈ f b, ∀ y ∈ f b', R x y)) :
    (l.flatMap f).Pairwise R := by
  induction l with
  | nil => simp
  | cons a as ih =>
    rw [List.flatMap_cons, List.pairwise_append]
    refine ⟨h1 a (List.mem_cons_self a as),
      ih (fun b hb => h1 b (List.mem_cons_of_mem a hb)) (List.pairwise_cons.mp h2).2, ?_⟩
    intro x hx y hy
    rw [List.mem_flatMap] at hy
    obtain ⟨b', hb', hy⟩ := hy
    exact (List.pairwise_cons.mp h2).1 b' hb' x hx y hy

/-- The pre-order walk visits keys in strictly ascending order. -/
theorem preVisit_sorted [Inhabited V] (bds : Bounds) :
    ∀ n : Node V, n.wfB = true → ∀ p,
      (preVisit bds p n).Pairwise (fun x y => keyCmp x.1 y.1 = .lt) := by
  intro n
  induction n using Node.ind with
  | h v cs kb t ihn =>
    intro hwf p
    rw [preVisit_def, List.pairwise_cons]
    obtain ⟨hsorted, hall⟩ := (Node.wfB_iff _).mp hwf
    simp only [Node.children_mk] at hsorted hall ⊢
    constructor
    · intro y hy
      rw [List.mem_flatMap] at hy
      obtain ⟨c, hcadm, hy⟩ := hy
      have hcmem : c ∈ cs := mem_of_mem_forwardChildren hcadm
      obtain ⟨s, hks, _⟩ := preVisit_sound bds c (hall c hcmem) _ _ _ hy
      rw [hks]
      have hre : (p ++ [c.keyByte]) ++ s = p ++ ([c.keyByte] ++ s) := by simp
      rw [hre]
      exact keyCmp_pfx_lt (by simp)
    · have hsubl : List.Sublist (forwardChildren bds p cs) cs := by
        rw [forwardChildren]
        split
        · exact List.nil_sublist _
        · exact forwardAdmissible_sublist _ _ _
      have hps : (forwardChildren bds p cs).Pairwise
          (fun a c => a.keyByte < c.keyByte) := by
        rw [sortedP] at hsorted
        exact List.Pairwise.sublist hsubl hsorted
      refine pairwise_flatMap_of ?_ ?_
      · intro c hcadm
        exact ihn c (mem_of_mem_forwardChildren hcadm)
          (hall c (mem_of_mem_forwardChildren hcadm)) _
      · refine List.Pairwise.imp_of_mem ?_ hps
        intro c c' hc hc' hbyte x hx y hy
        obtain ⟨s₁, hx1, _⟩ := preVisit_sound bds c
          (hall c (mem_of_mem_forwardChildren hc)) _ _ _ hx
        obtain ⟨s₂, hy1, _⟩ := preVisit_sound bds c'
          (hall c' (mem_of_mem_forwardChildren hc')) _ _ _ hy
        rw [hx1, hy1]
        have e1 : (p ++ [c.keyByte]) ++ s₁ = p ++ c.keyByte :: s₁ := by simp
        have e2 : (p ++ [c'.keyByte]) ++ s₂ = p ++ c'.keyByte :: s₂ := by simp
        rw [e1, e2]
        exact keyCmp_append_byte_lt hbyte p s₁ s₂

/-- Soundness of the post-order walk: every visited pair extends the starting
path and names the node actually reached by that path. -/
theorem postVisit_sound [Inhabited V] (bds : Bounds) :
    ∀ n : Node V, n.wfB = true → ∀ p k nd, (k, nd) ∈ postVisit bds p n →
      ∃ s, k = p ++ s ∧ n.nodeAt s = some nd := by
  intro n
  induction n using Node.ind with
  | h v cs kb t ihn =>
    intro hwf p k nd hmem
    rw [postVisit_def] at hmem
    rcases List.mem_append.mp hmem with hmem | hmem
    · rw [List.mem_flatMap] at hmem
      obtain ⟨c, hcadm, hmem⟩ := hmem
      have hcmem : c ∈ cs := by
        simpa using mem_of_mem_reverseChildren hcadm
      obtain ⟨hsorted, hall⟩ := (Node.wfB_iff _).mp hwf
      simp only [Node.children_mk] at hsorted hall
      obtain ⟨s', hk, hat⟩ := ihn c hcmem (hall c hcmem) (p ++ [c.keyByte]) k nd hmem
      obtain ⟨i, hsi, hgi⟩ := searchList_mem_sorted hsorted hcmem
      refine ⟨c.keyByte :: s', by simp [hk], ?_⟩
      have hsrch : (Node.mk v cs kb t).search c.keyByte = (i, true) := hsi
      rw [nodeAt_cons_found s' hsrch]
      simp only [Node.children_mk]
      rw [hgi]
      exact hat
    · rw [List.mem_singleton, Prod.mk.injEq] at hmem
      obtain ⟨rfl, rfl⟩ := hmem
      exact ⟨[], by simp, rfl⟩

/-- Completeness of the post-order walk for a reverse bounds. -/
theorem postVisit_complete [Inhabited V] {bds : Bounds} (hrev : bds.isReverse = true) :
    ∀ (s : Key) (n : Node V), n.wfB = true → ∀ (p : Key) (nd : Node V),
      n.nodeAt s = some nd →
      belowLowB bds.low (p ++ s) = false → aboveHighB bds.high (p ++ s) = false →
      (p ++ s, nd) ∈ postVisit bds p n := by
  intro s
  induction s with
  | nil =>
    intro n hwf p nd hat _ _
    rw [Node.nodeAt] at hat
    cases hat
    rw [postVisit_def]
    exact List.mem_append_right _ (by simp)
  | cons b s' ih =>
    intro n hwf p nd hat hlow hhigh
    rcases hs : n.search b with ⟨i, found⟩
    cases found
    · rw [nodeAt_cons_not_found s' hs] at hat
      cases hat
    · rw [nodeAt_cons_found s' hs] at hat
      have hs' : searchList b n.children = (i, true) := hs
      obtain ⟨l₁, c, l₂, hsplit, hidx, hbyte, hlt₁⟩ := searchList_found (by rw [hs'])
      rw [hs'] at hidx
      simp at hidx
      subst hidx
      have hgetD : n.children.getD l₁.length (dfltNode V) = c := by
        rw [hsplit, getD_append_length]
      rw [hgetD] at hat
      obtain ⟨hsorted, hall⟩ := (Node.wfB_iff _).mp hwf
      have hcmem : c ∈ n.children :=
        hsplit ▸ List.mem_append_right _ (List.mem_cons_self c l₂)
      obtain ⟨lo, hi, hlob, hbhi, hcb⟩ := childBounds_complete bds p b s' hlow hhigh
      rw [hrev] at hcb
      simp only [if_true] at hcb
      have hcadm : c ∈ reverseChildren bds p n.children := by
        rw [reverseChildren, hcb]
        have hdesc : n.children.reverse.Pairwise
            (fun a c => c.keyByte < a.keyByte) := by
          rw [List.pairwise_reverse]
          rw [sortedP] at hsorted
          exact hsorted
        exact mem_revAdmissible_of hdesc (List.mem_reverse.mpr hcmem)
          (hbyte ▸ hbhi) (hbyte ▸ hlob)
      rw [postVisit_def]
      refine List.mem_append_left _ ?_
      rw [List.mem_flatMap]
      refine ⟨c, hcadm, ?_⟩
      have hassoc : p ++ b :: s' = (p ++ [b]) ++ s' := by simp
      rw [hassoc] at hlow hhigh ⊢
      rw [hbyte]
      exact ih c (hall c hcmem) (p ++ [b]) nd hat hlow hhigh

/-- The post-order walk driven by the descending adjacency visits keys in
strictly descending order. -/
theorem postVisit_sorted [Inhabited V] (bds : Bounds) :
    ∀ n : Node V, n.wfB = true → ∀ p,
      (postVisit bds p n).Pairwise (fun x y => keyCmp x.1 y.1 = .gt) := by
  intro n
  induction n using Node.ind with
  | h v cs kb t ihn =>
    intro hwf p
    rw [postVisit_def, List.pairwise_append]
    obtain ⟨hsorted, hall⟩ := (Node.wfB_iff _).mp hwf
    simp only [Node.children_mk] at hsorted hall ⊢
    refine ⟨?_, List.pairwise_singleton _ _, ?_⟩
    · have hsubl : List.Sublist (reverseChildren bds p cs) cs.reverse := by
        rw [reverseChildren]
        split
        · exact List.nil_sublist _
        · exact revAdmissible_sublist _ _ _
      have hps : (reverseChildren bds p cs).Pairwise
          (fun a c => c.keyByte < a.keyByte) := by
        refine List.Pairwise.sublist hsubl ?_
        rw [List.pairwise_reverse]
        rw [sortedP] at hsorted
        exact hsorted
      refine pairwise_flatMap_of ?_ ?_
      · intro c hcadm
        exact ihn c (mem_of_mem_reverseChildren hcadm)
          (hall c (mem_of_mem_reverseChildren hcadm)) _
      · refine List.Pairwise.imp_of_mem ?_ hps
        intro c c' hc hc' hbyte x hx y hy
        obtain ⟨s₁, hx1, _⟩ := postVisit_sound bds c
          (hall c (mem_of_mem_reverseChildren hc)) _ _ _ hx
        obtain ⟨s₂, hy1, _⟩ := postVisit_sound bds c'
          (hall c' (mem_of_mem_reverseChildren hc')) _ _ _ hy
        rw [hx1, hy1]
        have e1 : (p ++ [c.keyByte]) ++ s₁ = p ++ c.keyByte :: s₁ := by simp
        have e2 : (p ++ [c'.keyByte]) ++ s₂ = p ++ c'.keyByte :: s₂ := by simp
        rw [e1, e2, keyCmp_gt_iff]
        exact keyCmp_append_byte_lt hbyte p s₂ s₁
    · intro x hx y hy
      rw [List.mem_flatMap] at hx
      obtain ⟨c, hcadm, hx⟩ := hx
      rw [List.mem_singleton] at hy
      subst hy
      obtain ⟨s, hks, _⟩ := postVisit_sound bds c
        (hall c (mem_of_mem_reverseChildren hcadm)) _ _ _ hx
      rw [hks, keyCmp_gt_iff]
      have hre : (p ++ [c.keyByte]) ++ s = p ++ ([c.keyByte] ++ s) := by simp
      rw [hre]
      exact keyCmp_pfx_lt (by simp)

/-- The per-path emission step of the range loop: yield the key and value of
an in-bounds terminal node. -/
def emitP [Inhabited V] (bds : Bounds) (q : Key × Node V) : Option (Key × V) :=
  if bds.compareKey q.1 = .eq ∧ q.2.isTerminal = true then some (q.1, q.2.value) else none

/-- The range loop equals: keep visited paths until the first one past the
bounds, then emit the in-bounds terminal ones. -/
theorem rangeLoop_eq [Inhabited V] (bds : Bounds) (vs : List (Key × Node V)) :
    rangeLoop bds vs =
      (vs.takeWhile (fun q => decide (bds.compareKey q.1 ≠ .gt))).filterMap (emitP bds) := by
  induction vs with
  | nil => rfl
  | cons q rest ih =>
    rcases q with ⟨k, nd⟩
    rw [rangeLoop, List.takeWhile_cons]
    rcases hc : bds.compareKey k with _ | _ | _ <;> dsimp only
    · simp [emitP, hc, ih]
    · rcases ht : nd.isTerminal <;> simp [emitP, hc, ht, ih]
    · simp

theorem emitP_fst [Inhabited V] {bds : Bounds} {q : Key × Node V} {r : Key × V}
    (h : emitP bds q = some r) : r.1 = q.1 := by
  rw [emitP] at h
  split at h
  · cases h
    rfl
  · cases h

theorem pairwise_fst_filterMap [Inhabited V] {R : Key → Key → Prop} {bds : Bounds}
    {vs : List (Key × Node V)} (h : vs.Pairwise (fun a c => R a.1 c.1)) :
    (vs.filterMap (emitP bds)).Pairwise (fun a c => R a.1 c.1) := by
  induction vs with
  | nil => simp
  | cons a rest ih =>
    rw [List.filterMap_cons]
    rcases he : emitP bds a with _ | r
    · exact ih (List.pairwise_cons.mp h).2
    · rw [List.pairwise_cons]
      refine ⟨?_, ih (List.pairwise_cons.mp h).2⟩
      intro y hy
      rw [List.mem_filterMap] at hy
      obtain ⟨x, hx, hex⟩ := hy
      rw [emitP_fst he, emitP_fst hex]
      exact (List.pairwise_cons.mp h).1 x hx

theorem mem_takeWhile_of_pairwise {α : Type} {R : α → α → Prop} {pred : α → Bool}
    {l : List α} {p : α} (hl : l.Pairwise R) (hp : p ∈ l) (hpred : pred p = true)
    (hprev : ∀ q ∈ l, R q p → pred q = true) :
    p ∈ l.takeWhile pred := by
  induction l with
  | nil => cases hp
  | cons a as ih =>
    rcases List.mem_cons.mp hp with rfl | hp
    · rw [List.takeWhile_cons, if_pos hpred]
      exact List.mem_cons_self _ _
    · have hra : R a p := (List.pairwise_cons.mp hl).1 p hp
      have hpa : pred a = true := hprev a (List.mem_cons_self a as) hra
      rw [List.takeWhile_cons, if_pos hpa]
      refine List.mem_cons_of_mem _
        (ih (List.pairwise_cons.mp hl).2 hp ?_)
      intro q hq hr
      exact hprev q (List.mem_cons_of_mem _ hq) hr

theorem range_mem_forward [Inhabited V] {bds : Bounds} (hrev : bds.isReverse = false)
    (n : Node V) (hwf : n.wfB = true) (k : Key) (v : V) :
    (k, v) ∈ n.range bds ↔ (n.get k = (v, true) ∧ inBoundsB bds k = true) := by
  rw [Node.range, if_neg (by simp [hrev]), rangeLoop_eq]
  constructor
  · intro hmem
    rw [List.mem_filterMap] at hmem
    obtain ⟨q, hqtake, hqemit⟩ := hmem
    have hqvs : q ∈ preVisit bds [] n := (List.takeWhile_sublist _).subset hqtake
    rw [emitP] at hqemit
    split at hqemit
    · next hcond =>
      obtain ⟨hcmpeq, hterm⟩ := hcond
      rw [Option.some_inj, Prod.mk.injEq] at hqemit
      obtain ⟨hk, hv⟩ := hqemit
      obtain ⟨s, hqs, hat⟩ := preVisit_sound bds n hwf [] q.1 q.2 (by
        rcases q with ⟨qk, qn⟩
        exact hqvs)
      rw [List.nil_append] at hqs
      constructor
      · rw [← hk, ← hv, get_eq_nodeAt, hqs, hat]
        simp [hterm]
      · rw [← hk, inBoundsB_eq]
        have := (compareKey_eq_iff bds q.1).mp hcmpeq
        simp [this.1, this.2]
    · cases hqemit
  · rintro ⟨hget, hin⟩
    rw [get_eq_nodeAt] at hget
    rcases hat : n.nodeAt k with _ | nd <;> rw [hat] at hget
    · simp at hget
    · dsimp only at hget
      rcases hterm : nd.isTerminal <;> rw [hterm] at hget
      · simp at hget
      · rw [if_pos rfl] at hget
        rw [Prod.mk.injEq] at hget
        have hv : nd.value = v := hget.1
        rw [inBoundsB_eq] at hin
        simp only [Bool.and_eq_true, Bool.not_eq_true'] at hin
        obtain ⟨hlow, hhigh⟩ := hin
        have hvisit : (k, nd) ∈ preVisit bds [] n := by
          have := preVisit_complete hrev k n hwf [] nd hat
            (by rw [List.nil_append]; exact hlow)
            (by rw [List.nil_append]; exact hhigh)
          rw [List.nil_append] at this
          exact this
        have hcmpeq : bds.compareKey k = .eq := (compareKey_eq_iff bds k).mpr ⟨hlow, hhigh⟩
        have htake : (k, nd) ∈ (preVisit bds [] n).takeWhile
            (fun q => decide (bds.compareKey q.1 ≠ .gt)) := by
          refine mem_takeWhile_of_pairwise (preVisit_sorted bds n hwf []) hvisit
            (by simp [hcmpeq]) ?_
          intro q hq hr
          simp only [decide_eq_true_eq]
          intro hqgt
          have habq := compareKey_gt_forward hrev hqgt
          have habk := aboveHighB_mono habq hr
          rw [habk] at hhigh
          cases hhigh
        rw [List.mem_filterMap]
        refine ⟨(k, nd), htake, ?_⟩
        rw [emitP, if_pos ⟨hcmpeq, hterm⟩, hv]

theorem range_mem_reverse [Inhabited V] {bds : Bounds} (hrev : bds.isReverse = true)
    (n : Node V) (hwf : n.wfB = true) (k : Key) (v : V) :
    (k, v) ∈ n.range bds ↔ (n.get k = (v, true) ∧ inBoundsB bds k = true) := by
  rw [Node.range, if_pos (by simp [hrev]), rangeLoop_eq]
  constructor
  · intro hmem
    rw [List.mem_filterMap] at hmem
    obtain ⟨q, hqtake, hqemit⟩ := hmem
    have hqvs : q ∈ postVisit bds [] n := (List.takeWhile_sublist _).subset hqtake
    rw [emitP] at hqemit
    split at hqemit
    · next hcond =>
      obtain ⟨hcmpeq, hterm⟩ := hcond
      rw [Option.some_inj, Prod.mk.injEq] at hqemit
      obtain ⟨hk, hv⟩ := hqemit
      obtain ⟨s, hqs, hat⟩ := postVisit_sound bds n hwf [] q.1 q.2 (by
        rcases q with ⟨qk, qn⟩
        exact hqvs)
      rw [List.nil_append] at hqs
      constructor
      · rw [← hk, ← hv, get_eq_nodeAt, hqs, hat]
        simp [hterm]
      · rw [← hk, inBoundsB_eq]
        have := (compareKey_eq_iff bds q.1).mp hcmpeq
        simp [this.1, this.2]
    · cases hqemit
  · rintro ⟨hget, hin⟩
    rw [get_eq_nodeAt] at hget
    rcases hat : n.nodeAt k with _ | nd <;> rw [hat] at hget
    · simp at hget
    · dsimp only at hget
      rcases hterm : nd.isTerminal <;> rw [hterm] at hget
      · simp at hget
      · rw [if_pos rfl] at hget
        rw [Prod.mk.injEq] at hget
        have hv : nd.value = v := hget.1
        rw [inBoundsB_eq] at hin
        simp only [Bool.and_eq_true, Bool.not_eq_true'] at hin
        obtain ⟨hlow, hhigh⟩ := hin
        have hvisit : (k, nd) ∈ postVisit bds [] n := by
          have := postVisit_complete hrev k n hwf [] nd hat
            (by rw [List.nil_append]; exact hlow)
            (by rw [List.nil_append]; exact hhigh)
          rw [List.nil_append] at this
          exact this
        have hcmpeq : bds.compareKey k = .eq := (compareKey_eq_iff bds k).mpr ⟨hlow, hhigh⟩
        have htake : (k, nd) ∈ (postVisit bds [] n).takeWhile
            (fun q => decide (bds.compareKey q.1 ≠ .gt)) := by
          refine mem_takeWhile_of_pairwise (postVisit_sorted bds n hwf []) hvisit
            (by simp [hcmpeq]) ?_
          intro q hq hr
          simp only [decide_eq_true_eq]
          intro hqgt
          have hbel := compareKey_gt_reverse hrev hqgt
          have hbelk := belowLowB_mono hbel (keyCmp_gt_iff.mp hr)
          rw [hbelk] at hlow
          cases hlow
        rw [List.mem_filterMap]
        refine ⟨(k, nd), htake, ?_⟩
        rw [emitP, if_pos ⟨hcmpeq, hterm⟩, hv]

/-- C1: for every bounds value and every well-formed trie, the forward range
sequence is strictly ascending by key and the reverse one strictly
descending, and either sequence holds exactly the pairs whose key is stored
(with its stored value) and satisfies the bounds' edge inclusion rules. -/
theorem range_exact_bounds [Inhabited V] (bds : Bounds) (n : Node V) (hwf : n.wfB = true) :
    (bds.isReverse = false →
      (n.range bds).Pairwise (fun x y => keyCmp x.1 y.1 = .lt)) ∧
    (bds.isReverse = true →
      (n.range bds).Pairwise (fun x y => keyCmp x.1 y.1 = .gt)) ∧
    (∀ k v, (k, v) ∈ n.range bds ↔ (n.get k = (v, true) ∧ inBoundsB bds k = true)) := by
  refine ⟨?_, ?_, ?_⟩
  · intro hrev
    rw [Node.range, if_neg (by simp [hrev]), rangeLoop_eq]
    exact @pairwise_fst_filterMap V _ (fun a c => keyCmp a c = .lt) bds _
      (List.Pairwise.sublist (List.takeWhile_sublist _) (preVisit_sorted bds n hwf []))
  · intro hrev
    rw [Node.range, if_pos (by simp [hrev]), rangeLoop_eq]
    exact @pairwise_fst_filterMap V _ (fun a c => keyCmp a c = .gt) bds _
      (List.Pairwise.sublist (List.takeWhile_sublist _) (postVisit_sorted bds n hwf []))
  · intro k v
    rcases hrev : bds.isReverse
    · exact range_mem_forward hrev n hwf k v
    · exact range_mem_reverse hrev n hwf k v

theorem flatMap_congr_left {f g : α → List β} {l : List α} (h : ∀ a ∈ l, f a = g a) :
    l.flatMap f = l.flatMap g := by
  rw [List.flatMap, List.flatMap, List.map_congr_left h]

/-- Fuel-indexed version of the pre-order walk, used to evaluate concrete
instances; agrees with `preVisit` whenever the fuel covers the tree. -/
def preVisitF [Inhabited V] (fuel : Nat) (bds : Bounds) (pfx : Key) (n : Node V) :
    List (Key × Node V) :=
  match fuel with
  | 0 => []
  | fuel' + 1 =>
    (pfx, n) ::
      (forwardChildren bds pfx n.children).flatMap
        (fun c => preVisitF fuel' bds (pfx ++ [c.keyByte]) c)

/-- Fuel-indexed version of the post-order walk. -/
def postVisitF [Inhabited V] (fuel : Nat) (bds : Bounds) (pfx : Key) (n : Node V) :
    List (Key × Node V) :=
  match fuel with
  | 0 => []
  | fuel' + 1 =>
    ((reverseChildren bds pfx n.children).flatMap
        (fun c => postVisitF fuel' bds (pfx ++ [c.keyByte]) c)) ++ [(pfx, n)]

theorem preVisitF_eq [Inhabited V] (bds : Bounds) :
    ∀ n : Node V, ∀ (fuel : Nat) (pfx : Key), sizeOf n ≤ fuel →
      preVisitF fuel bds pfx n = preVisit bds pfx n := by
  intro n
  induction n using Node.ind with
  | h v cs kb t ihn =>
    intro fuel pfx hfuel
    cases fuel with
    | zero =>
      exfalso
      rw [Node.mk.sizeOf_spec] at hfuel
      omega
    | succ fuel' =>
      rw [preVisitF, preVisit_def]
      congr 1
      refine flatMap_congr_left ?_
      intro c hc
      have hcmem : c ∈ cs := by simpa using mem_of_mem_forwardChildren hc
      refine ihn c hcmem fuel' _ ?_
      have h1 : sizeOf c < sizeOf (Node.mk v cs kb t) :=
        Node.sizeOf_lt_of_mem (by simpa using hcmem)
      omega

theorem postVisitF_eq [Inhabited V] (bds : Bounds) :
    ∀ n : Node V, ∀ (fuel : Nat) (pfx : Key), sizeOf n ≤ fuel →
      postVisitF fuel bds pfx n = postVisit bds pfx n := by
  intro n
  induction n using Node.ind with
  | h v cs kb t ihn =>
    intro fuel pfx hfuel
    cases fuel with
    | zero =>
      exfalso
      rw [Node.mk.sizeOf_spec] at hfuel
      omega
    | succ fuel' =>
      rw [postVisitF, postVisit_def]
      congr 1
      refine flatMap_congr_left ?_
      intro c hc
      have hcmem : c ∈ cs := by simpa using mem_of_mem_reverseChildren hc
      refine ihn c hcmem fuel' _ ?_
      have h1 : sizeOf c < sizeOf (Node.mk v cs kb t) :=
        Node.sizeOf_lt_of_mem (by simpa using hcmem)
      omega

/-- Evaluation principle for `Range` on concrete tries. -/
theorem range_eval [Inhabited V] (n : Node V) (bds : Bounds) (fuel : Nat)
    (h : sizeOf n ≤ fuel) :
    n.range bds =
      (if bds.isReverse then rangeLoop bds (postVisitF fuel bds [] n)
       else rangeLoop bds (preVisitF fuel bds [] n)) := by
  rw [Node.range, preVisitF_eq bds n fuel [] h, postVisitF_eq bds n fuel [] h]

/-- C4: on the trie holding exactly the keys `[0x10]`, `[0x10, 0x20]` and
`[0x11]`, the forward range `From([0x10]).To([0x11])` yields `[0x10]` then
`[0x10, 0x20]` and excludes the exclusive high edge `[0x11]`; the reverse
range `From([0x11]).DownTo([0x10])` yields `[0x11]` then `[0x10, 0x20]` and
excludes the exclusive `DownTo` edge `[0x10]`. -/
theorem boundary_exactness_scenario :
    ((((newPointerTrie Nat).put [0x10] 1).1.put [0x10, 0x20] 2).1.put [0x11] 3).1.range
        ((From [0x10]).To [0x11]) = [([0x10], 1), ([0x10, 0x20], 2)] ∧
    ((((newPointerTrie Nat).put [0x10] 1).1.put [0x10, 0x20] 2).1.put [0x11] 3).1.range
        ((From [0x11]).DownTo [0x10]) = [([0x11], 3), ([0x10, 0x20], 2)] := by
  constructor
  · rw [range_eval _ _ 100 (by decide)]
    decide
  · rw [range_eval _ _ 100 (by decide)]
    decide

/-- Concrete instance for the C1 theorem: the two-key trie
`{[0x10] ↦ 1, [0x11] ↦ 2}` against the forward bounds
`From([0x10]).To([0x12])`. -/
theorem range_exact_bounds_witness :
    (Node.mk 1 [Node.mk 7 [] 0x10 true, Node.mk 9 [] 0x11 true] 0 false : Node Nat).wfB
        = true ∧
    ((((From [0x10]).To [0x12]).isReverse = false →
      ((Node.mk 1 [Node.mk 7 [] 0x10 true, Node.mk 9 [] 0x11 true] 0 false :
          Node Nat).range ((From [0x10]).To [0x12])).Pairwise
        (fun x y => keyCmp x.1 y.1 = .lt)) ∧
     (((From [0x10]).To [0x12]).isReverse = true →
      ((Node.mk 1 [Node.mk 7 [] 0x10 true, Node.mk 9 [] 0x11 true] 0 false :
          Node Nat).range ((From [0x10]).To [0x12])).Pairwise
        (fun x y => keyCmp x.1 y.1 = .gt)) ∧
     (∀ k v, (k, v) ∈ (Node.mk 1 [Node.mk 7 [] 0x10 true, Node.mk 9 [] 0x11 true] 0 false :
          Node Nat).range ((From [0x10]).To [0x12]) ↔
        ((Node.mk 1 [Node.mk 7 [] 0x10 true, Node.mk 9 [] 0x11 true] 0 false :
          Node Nat).get k = (v, true) ∧
         inBoundsB ((From [0x10]).To [0x12]) k = true))) := by
  have hwf : (Node.mk 1 [Node.mk 7 [] 0x10 true, Node.mk 9 [] 0x11 true] 0 false :
      Node Nat).wfB = true := by
    rw [Node.wfB_iff]
    refine ⟨by simp [sortedP], ?_⟩
    intro c hc
    simp only [Node.children_mk, List.mem_cons, List.mem_singleton,
      List.not_mem_nil, or_false] at hc
    rcases hc with rfl | rfl <;> (rw [Node.wfB_iff]; simp [sortedP])
  exact ⟨hwf, range_exact_bounds ((From [0x10]).To [0x12]) _ hwf⟩
